import Mathlib

/-!
Verification of the SchemaFlow web-automation workflow engine.

This file gives a shallow embedding, in Lean 4, of the parts of the engine
that the specification's quantified claims are about:

* the variable interpolator `resolve_variables`
  (`backend/engine/actions/utils.py`),
* the scheduler's `topological_sort` (`backend/engine/executor.py`),
* the execution context's `request_user_input` (`backend/engine/context.py`),
* the AI intervention detector (`backend/engine/ai/intervention.py`) and the
  executor's `_check_ai_intervention` gate,
* the per-run state machine of `WorkflowExecutor._run_workflow` / `execute`
  (status and `current_node_id` bookkeeping),
* the keyword-argument contract between `WorkflowExecutor._run_workflow`
  and `BrowserManager.connect` (`backend/engine/browser_manager.py`).

Python dictionaries, lists, strings and scalars are modelled by the
inductive type `PyVal`; machine-level details that the claims do not touch
(actual network and browser I/O, wall-clock time, the LLM) are abstracted
as oracle parameters.
-/

namespace SchemaFlow

/-- Model of the dynamic Python values that can appear in a node `config`
and in the execution context's variable map: strings, ints, booleans,
`None`, lists and string-keyed dicts.  (Floats are not modelled; none of
the verified claims depends on them.) -/
inductive PyVal where
  | str (s : String)
  | int (n : Int)
  | bool (b : Bool)
  | none
  | list (items : List PyVal)
  | dict (items : List (String × PyVal))


mutual

/-- Model of Python `str(v)`.  `str` of a string is the string itself;
`str(True) = "True"`, `str(None) = "None"`; containers print with `repr`
of their elements.  (String `repr` is modelled without escape sequences,
which is exact for quote-free printable strings.) -/
def pyStr : PyVal → String
  | .str s => s
  | .int n => toString n
  | .bool b => if b then "True" else "False"
  | .none => "None"
  | .list items => "[" ++ String.intercalate ", " (pyReprList items) ++ "]"
  | .dict items => "\x7b" ++ String.intercalate ", " (pyReprKVList items) ++ "\x7d"

/-- Model of Python `repr(v)` (differs from `str` only on strings, which
gain single quotes). -/
def pyRepr : PyVal → String
  | .str s => "'" ++ s ++ "'"
  | .int n => toString n
  | .bool b => if b then "True" else "False"
  | .none => "None"
  | .list items => "[" ++ String.intercalate ", " (pyReprList items) ++ "]"
  | .dict items => "\x7b" ++ String.intercalate ", " (pyReprKVList items) ++ "\x7d"
termination_by structural v => v

def pyReprList : List PyVal → List String
  | [] => []
  | v :: rest => pyRepr v :: pyReprList rest
termination_by structural l => l

def pyReprKVList : List (String × PyVal) → List String
  | [] => []
  | (k, v) :: rest => ("'" ++ k ++ "': " ++ pyRepr v) :: pyReprKVList rest
termination_by structural l => l

end

/-- Python `dict.get(key)` on a string-keyed dict, modelled on an
association list built in insertion order with later bindings winning
(as a Python dict literal / repeated assignment would). -/
def pyGet (items : List (String × PyVal)) (key : String) : Option PyVal :=
  match items with
  | [] => Option.none
  | (k, v) :: rest => match pyGet rest key with
    | Option.none => if k = key then some v else Option.none
    | some r => some r

/-- The word characters of the regex `\w` used by the `\{\{(\w+)\}\}`
pattern in `resolve_variables` (ASCII fragment: letters, digits,
underscore; all identifiers in the verified claims are ASCII). -/
def isWordChar (c : Char) : Bool :=
  c.isAlphanum || c = '_'

/-- The four things the `finditer` scan of `\\{\\{(\\w+)\\}\\}` can see at the
current position: end of input; a head character that does not begin
`\x7b\x7b` (advance one); `\x7b\x7b` that is not completed into a match
(advance one, i.e. resume after the first brace); or a full match
`\x7b\x7bw\x7d\x7d` with `w` a non-empty maximal run of word characters
(resume after the match).  `matched` does not need backtracking: a shorter
word run would end at a word character, never at `\x7d`. -/
inductive ScanStep where
  | empty
  | noBrace (c : Char) (rest : List Char)
  | braceNoMatch (rest : List Char)
  | matched (w r3 : List Char)

/-- One step of the `finditer` scan (see `ScanStep`). -/
def scanView : List Char → ScanStep
  | [] => .empty
  | [c] => .noBrace c []
  | c :: c2 :: rest2 =>
    if c = '\x7b' then
      if c2 = '\x7b' then
        if rest2.takeWhile isWordChar ≠ [] ∧
            (rest2.dropWhile isWordChar).take 2 = ['\x7d', '\x7d'] then
          .matched (rest2.takeWhile isWordChar) ((rest2.dropWhile isWordChar).drop 2)
        else .braceNoMatch (c2 :: rest2)
      else .noBrace c (c2 :: rest2)
    else .noBrace c (c2 :: rest2)

/-- A `\x7b\x7bw\x7d\x7d` occurrence with the braces spelled out. -/
def bracedChars (w : List Char) : List Char :=
  '\x7b' :: '\x7b' :: w ++ '\x7d' :: '\x7d' :: []

/-- What one match is replaced by:
`str(variables.get(var_name, match.group(0)))` — the stringified variable
value when the identifier is known, the match itself verbatim otherwise. -/
def substName (lookup : String → Option String) (w : List Char) : List Char :=
  match lookup (String.mk w) with
  | some t => t.toList
  | Option.none => bracedChars w

/-- Core of `resolve_variables` on one string: the combined effect of
`re.finditer(r'\\{\\{(\\w+)\\}\\}', value)` followed by the right-to-left
splice `result[:start] + str(variables.get(name, group0)) + result[end:]`.
Because the splice positions come from the original string and the
matches are sorted and non-overlapping, processing them right-to-left is
the simultaneous replacement of every match, which this left-to-right
scanner computes directly.  The `fuel` argument is a
structural-termination device only: the function is always entered with
`fuel = cs.length`, every recursive call strictly shrinks `cs`, and
`substChars_fuel_irrelevant` shows any sufficient fuel gives the same
result. -/
def substChars (lookup : String → Option String) : Nat → List Char → List Char
  | 0, cs => cs
  | fuel + 1, cs =>
    match scanView cs with
    | .empty => []
    | .noBrace c rest => c :: substChars lookup fuel rest
    | .braceNoMatch rest => '\x7b' :: substChars lookup fuel rest
    | .matched w r3 => substName lookup w ++ substChars lookup fuel r3

/-- Whether the scan would find, somewhere in `cs`, a `\x7b\x7bname\x7d\x7d`
match whose `name` is known to `lookup` — the condition under which a
second interpolator application changes the string.  Same traversal as
`substChars`. -/
def hasKnownOcc (lookup : String → Option String) : Nat → List Char → Bool
  | 0, _ => false
  | fuel + 1, cs =>
    match scanView cs with
    | .empty => false
    | .noBrace _ rest => hasKnownOcc lookup fuel rest
    | .braceNoMatch rest => hasKnownOcc lookup fuel rest
    | .matched w r3 =>
      (lookup (String.mk w)).isSome || hasKnownOcc lookup fuel r3

/-- Whether the scan finds any `\x7b\x7bname\x7d\x7d` match at all in `cs`. -/
def hasAnyMatch : Nat → List Char → Bool
  | 0, _ => false
  | fuel + 1, cs =>
    match scanView cs with
    | .empty => false
    | .noBrace _ rest => hasAnyMatch fuel rest
    | .braceNoMatch rest => hasAnyMatch fuel rest
    | .matched _ _ => true

/-- `substChars` entered with its canonical fuel. -/
def substRun (lookup : String → Option String) (cs : List Char) : List Char :=
  substChars lookup cs.length cs

/-- `hasKnownOcc` entered with its canonical fuel. -/
def knownRun (lookup : String → Option String) (cs : List Char) : Bool :=
  hasKnownOcc lookup cs.length cs

/-- `hasAnyMatch` entered with its canonical fuel. -/
def anyRun (cs : List Char) : Bool :=
  hasAnyMatch cs.length cs

/-- The lookup function `resolve_variables` actually substitutes with:
`str(variables.get(name, group0))`, i.e. the stringified value when the
identifier is a key of the variable map. -/
def varLookup (vars : List (String × PyVal)) (name : String) : Option String :=
  (pyGet vars name).map pyStr

/-- String case of `resolve_value`. -/
def resolveString (vars : List (String × PyVal)) (s : String) : String :=
  String.mk (substRun (varLookup vars) s.toList)

mutual

/-- Shallow embedding of `resolve_variables(config, variables)` from
`backend/engine/actions/utils.py`: recursively resolves `{{name}}`
references in every string leaf; dict values and list items are resolved
recursively (dict keys are untouched); every other value is returned
unchanged.  The function is total: unknown identifiers are left verbatim
and no error path exists. -/
def resolve_variables (config : PyVal) (vars : List (String × PyVal)) : PyVal :=
  match config with
  | .str s => .str (resolveString vars s)
  | .dict items => .dict (resolveKVs items vars)
  | .list items => .list (resolveItems items vars)
  | v => v
termination_by structural config

/-- The dict comprehension `{k: resolve_value(v) for k, v in value.items()}`. -/
def resolveKVs : List (String × PyVal) → List (String × PyVal) → List (String × PyVal)
  | [], _ => []
  | (k, v) :: rest, vars => (k, resolve_variables v vars) :: resolveKVs rest vars
termination_by structural l => l

/-- The list comprehension `[resolve_value(v) for v in value]`. -/
def resolveItems : List PyVal → List (String × PyVal) → List PyVal
  | [], _ => []
  | v :: rest, vars => resolve_variables v vars :: resolveItems rest vars
termination_by structural l => l

end

/-- String form of `bracedChars`. -/
def braced (w : String) : String :=
  String.mk (bracedChars w.toList)

/-- One literal-then-reference segment of a string, used to state the
substitution claim: the segment renders as `lit` followed by
`\x7b\x7bname\x7d\x7d`. -/
structure Seg where
  lit : List Char
  name : List Char
deriving Repr

/-- Renders a list of segments followed by a trailing literal. -/
def renderSegs (segs : List Seg) (tail : List Char) : List Char :=
  match segs with
  | [] => tail
  | seg :: rest => seg.lit ++ bracedChars seg.name ++ renderSegs rest tail

/-- Specification-side rendering: each reference is replaced by the
looked-up text when the identifier is known and kept verbatim otherwise;
literals pass through. -/
def renderResolved (lookup : String → Option String) (segs : List Seg)
    (tail : List Char) : List Char :=
  match segs with
  | [] => tail
  | seg :: rest =>
    seg.lit ++
      (match lookup (String.mk seg.name) with
       | some t => t.toList
       | Option.none => bracedChars seg.name) ++
      renderResolved lookup rest tail

mutual

/-- Whether every remaining `{{name}}` occurrence in every string leaf of
a resolved config has an identifier outside the variable map — the
condition under which a second application of the interpolator is the
identity. -/
def noKnownOcc (vars : List (String × PyVal)) : PyVal → Bool
  | .str s => !(knownRun (varLookup vars) s.toList)
  | .dict items => noKnownOccKVs vars items
  | .list items => noKnownOccItems vars items
  | _ => true
termination_by structural v => v

def noKnownOccKVs (vars : List (String × PyVal)) : List (String × PyVal) → Bool
  | [] => true
  | (_, v) :: rest => noKnownOcc vars v && noKnownOccKVs vars rest
termination_by structural l => l

def noKnownOccItems (vars : List (String × PyVal)) : List PyVal → Bool
  | [] => true
  | v :: rest => noKnownOcc vars v && noKnownOccItems vars rest
termination_by structural l => l

end

/-!
Scheduler: `topological_sort(nodes, edges)` from `backend/engine/executor.py`.

The Python function first forms `node_ids = {node["id"] for node in nodes}`,
a `set`.  Everything afterwards iterates in that set's order: the
`in_degree` dict is built over it, and the seed queue comprehension reads
`in_degree.items()` in the same order.  CPython's set iteration order for
strings is hash-based (and randomized by `PYTHONHASHSEED`); it is *not*
the insertion order of `nodes`.  The embedding therefore takes the set's
iteration order as an explicit argument `setOrder`: a list that, in the
theorems, is required to enumerate the distinct node ids (`Nodup` plus the
same membership as `nodes`) but in an arbitrary order.  Edges whose
`source` or `target` is not in `node_ids` are skipped, exactly as in the
source (`if source in node_ids and target in node_ids`); an edge dict
missing its `source`/`target` key yields `None`, which is never a member
of `node_ids`, so such edges are likewise skipped.
-/

/-- A workflow edge: `{source: nodeId, target: nodeId}`. -/
structure Edge where
  source : String
  target : String
deriving DecidableEq, Repr

/-- The edges that survive the `if source in node_ids and target in
node_ids` guard, in list order. -/
def filteredEdges (ids : List String) (edges : List Edge) : List Edge :=
  edges.filter (fun e => decide (e.source ∈ ids) && decide (e.target ∈ ids))

/-- The adjacency list `adj[v]`: targets of the surviving edges with
source `v`, appended in edge order. -/
def adjTargets (ids : List String) (edges : List Edge) (v : String) : List String :=
  (filteredEdges ids edges).filterMap
    (fun e => if e.source = v then some e.target else Option.none)

/-- The initial `in_degree[v]`: the number of surviving edges into `v`
(`Int`, like a Python int, so that the `-= 1` decrements below are
faithful even if they were to drop past zero). -/
def initInDeg (ids : List String) (edges : List Edge) (v : String) : Int :=
  ((filteredEdges ids edges).filter (fun e => decide (e.target = v))).length

/-- The inner `for neighbor in adj[node_id]` loop body: decrement the
neighbor's in-degree and append it to the queue when the decremented
degree is exactly zero. -/
def stepNeighbors : List String → (String → Int) → List String →
    ((String → Int) × List String)
  | [], deg, queue => (deg, queue)
  | nb :: rest, deg, queue =>
    let deg' : String → Int := fun x => if x = nb then deg x - 1 else deg x
    let queue' := if deg' nb = 0 then queue ++ [nb] else queue
    stepNeighbors rest deg' queue'

/-- The nodes appended to the queue by one pass of `stepNeighbors`
(characterization helper; `stepNeighbors nbs deg q` returns
`q ++ newlyEnq nbs deg`). -/
def newlyEnq : List String → (String → Int) → List String
  | [], _ => []
  | nb :: rest, deg =>
    (if deg nb - 1 = 0 then [nb] else []) ++
      newlyEnq rest (fun x => if x = nb then deg x - 1 else deg x)

/-- Sum of the truncated in-degrees over `ids`, the termination measure
component of the Kahn loop. -/
def degSum (ids : List String) (deg : String → Int) : Nat :=
  (ids.map (fun v => (deg v).toNat)).sum

theorem stepNeighbors_cons (nb : String) (rest : List String) (deg : String → Int)
    (queue : List String) :
    stepNeighbors (nb :: rest) deg queue = stepNeighbors rest
      (fun x => if x = nb then deg x - 1 else deg x)
      (if deg nb - 1 = 0 then queue ++ [nb] else queue) := by
  simp [stepNeighbors]

theorem stepNeighbors_deg (nbs : List String) (deg : String → Int)
    (queue : List String) :
    (stepNeighbors nbs deg queue).1 = fun v => deg v - (nbs.count v : Int) := by
  induction nbs generalizing deg queue with
  | nil => funext v; simp [stepNeighbors]
  | cons nb rest ih =>
    rw [stepNeighbors_cons, ih]
    funext v
    by_cases h : v = nb <;>
      simp [h, List.count_cons, sub_sub, add_comm]

theorem stepNeighbors_queue (nbs : List String) (deg : String → Int)
    (queue : List String) :
    (stepNeighbors nbs deg queue).2 = queue ++ newlyEnq nbs deg := by
  induction nbs generalizing deg queue with
  | nil => simp [stepNeighbors, newlyEnq]
  | cons nb rest ih =>
    rw [stepNeighbors_cons, ih, newlyEnq]
    by_cases h : deg nb - 1 = 0 <;> simp [h]

theorem degSum_update_le (ids : List String) (deg : String → Int) (nb : String) :
    degSum ids (fun x => if x = nb then deg x - 1 else deg x) ≤ degSum ids deg := by
  unfold degSum
  apply List.sum_le_sum
  intro v _
  by_cases h : v = nb <;> simp [h]

theorem degSum_update_lt (ids : List String) (deg : String → Int) (nb : String)
    (hmem : nb ∈ ids) (hpos : 0 < deg nb) :
    degSum ids (fun x => if x = nb then deg x - 1 else deg x) < degSum ids deg := by
  unfold degSum
  apply List.sum_lt_sum
  · intro v _
    by_cases h : v = nb <;> simp [h]
  · exact ⟨nb, hmem, by simp; omega⟩

/-- Measure decrease for the neighbor pass: queue length plus remaining
degree mass never grows, provided every processed neighbor is in `ids`. -/
theorem stepNeighbors_measure (ids : List String) (nbs : List String)
    (deg : String → Int) (queue : List String)
    (hnbs : ∀ x ∈ nbs, x ∈ ids) :
    (stepNeighbors nbs deg queue).2.length + degSum ids (stepNeighbors nbs deg queue).1 ≤
      queue.length + degSum ids deg := by
  induction nbs generalizing deg queue with
  | nil => simp [stepNeighbors]
  | cons nb rest ih =>
    rw [stepNeighbors_cons]
    have hnb : nb ∈ ids := hnbs nb (by simp)
    have hrest : ∀ x ∈ rest, x ∈ ids := fun x hx => hnbs x (by simp [hx])
    by_cases h : deg nb - 1 = 0
    · rw [if_pos h]
      calc (stepNeighbors rest _ (queue ++ [nb])).2.length +
            degSum ids (stepNeighbors rest _ (queue ++ [nb])).1 ≤
          (queue ++ [nb]).length + degSum ids (fun x => if x = nb then deg x - 1 else deg x) :=
            ih _ _ hrest
        _ ≤ queue.length + degSum ids deg := by
            have := degSum_update_lt ids deg nb hnb (by omega)
            simp only [List.length_append, List.length_cons, List.length_nil]
            omega
    · rw [if_neg h]
      calc (stepNeighbors rest _ queue).2.length +
            degSum ids (stepNeighbors rest _ queue).1 ≤
          queue.length + degSum ids (fun x => if x = nb then deg x - 1 else deg x) :=
            ih _ _ hrest
        _ ≤ queue.length + degSum ids deg := by
            have := degSum_update_le ids deg nb
            omega

theorem adjTargets_subset (ids : List String) (edges : List Edge) (v : String) :
    ∀ x ∈ adjTargets ids edges v, x ∈ ids := by
  intro x hx
  simp only [adjTargets, List.mem_filterMap] at hx
  obtain ⟨e, he, hif⟩ := hx
  simp only [filteredEdges, List.mem_filter, Bool.and_eq_true, decide_eq_true_eq] at he
  split at hif
  · cases hif; exact he.2.2
  · cases hif

/-- The `while queue:` loop of `topological_sort`: pop the queue head,
append it to the result, decrement its neighbors and enqueue those whose
in-degree reaches zero. -/
def kahnLoop (ids : List String) (edges : List Edge) :
    List String → (String → Int) → List String
  | [], _ => []
  | n :: rest, deg =>
    n :: kahnLoop ids edges (stepNeighbors (adjTargets ids edges n) deg rest).2
      (stepNeighbors (adjTargets ids edges n) deg rest).1
termination_by queue deg => queue.length + degSum ids deg
decreasing_by
  have h := stepNeighbors_measure ids (adjTargets ids edges nb) deg rest
    (adjTargets_subset ids edges nb)
  simp only [List.length_cons]
  omega

/-- Shallow embedding of `topological_sort(nodes, edges)` from
`backend/engine/executor.py`.  `setOrder` is the iteration order of the
Python set `node_ids = {node["id"] for node in nodes}` (see the section
comment above): the `in_degree` dict follows it, so the seed queue
`[node_id for node_id, degree in in_degree.items() if degree == 0]` lists
the zero-in-degree nodes in that order. -/
def topological_sort (setOrder : List String) (edges : List Edge) : List String :=
  kahnLoop setOrder edges
    (setOrder.filter (fun v => decide (initInDeg setOrder edges v = 0)))
    (initInDeg setOrder edges)

/-- The edge relation of the surviving (endpoint-validated) edges. -/
def edgeRel (ids : List String) (edges : List Edge) (u v : String) : Prop :=
  Edge.mk u v ∈ filteredEdges ids edges

instance (ids : List String) (edges : List Edge) :
    DecidableRel (edgeRel ids edges) := fun u v =>
  inferInstanceAs (Decidable (Edge.mk u v ∈ filteredEdges ids edges))

/-- Acyclicity of the surviving edge relation: no node lies on a directed
cycle (no nonempty path from a node to itself). -/
def Acyclic (ids : List String) (edges : List Edge) : Prop :=
  ∀ v, ¬ Relation.TransGen (edgeRel ids edges) v v

/-- In a list, `u` occurs strictly before `v`. -/
def Before (u v : String) (l : List String) : Prop :=
  ∃ l₁ l₂, l = l₁ ++ v :: l₂ ∧ u ∈ l₁

/-- The number of surviving edges into `v` whose source has already been
popped (is in `P`).  The loop maintains `deg v = initInDeg v - cntFrom P v`. -/
def cntFrom (ids : List String) (edges : List Edge) (P : List String) (v : String) : Nat :=
  ((filteredEdges ids edges).filter
    (fun e => decide (e.target = v) && decide (e.source ∈ P))).length

/-- The loop invariant of the Kahn walk: `P` is the popped prefix (the
result so far), `queue`/`deg` the live state. -/
structure KahnInv (ids : List String) (edges : List Edge) (P queue : List String)
    (deg : String → Int) : Prop where
  deg_eq : ∀ v, deg v = (initInDeg ids edges v) - (cntFrom ids edges P v : Int)
  nodup : (P ++ queue).Nodup
  queue_mem : ∀ v ∈ queue, v ∈ ids
  queue_deg : ∀ v ∈ queue, deg v = 0
  complete : ∀ v ∈ ids, v ∉ P → v ∉ queue → deg v ≠ 0
  popped_deg : ∀ v ∈ P, deg v = 0
  popped_mem : ∀ v ∈ P, v ∈ ids
  pop_before : ∀ e ∈ filteredEdges ids edges, e.target ∈ P → Before e.source e.target P
  queue_src : ∀ e ∈ filteredEdges ids edges, e.target ∈ queue → e.source ∈ P

/-- What the finished walk guarantees about the full output `F`. -/
structure KahnOut (ids : List String) (edges : List Edge) (F : List String) : Prop where
  nodup : F.Nodup
  mem : ∀ v ∈ F, v ∈ ids
  complete : ∀ v ∈ ids,
    (∀ e ∈ filteredEdges ids edges, e.target = v → e.source ∈ F) → v ∈ F
  edge_before : ∀ e ∈ filteredEdges ids edges, e.target ∈ F → Before e.source e.target F

/-!
Execution context (`backend/engine/context.py`): status machine and the
user-input rendezvous `request_user_input` / `respond_user_input`.
-/

/-- The `ExecutionStatus` enum. -/
inductive ExecutionStatus where
  | pending
  | running
  | paused
  | completed
  | failed
  | cancelled
deriving DecidableEq, Repr

/-- How the `asyncio.wait_for(self._user_input_event.wait(), timeout)` call
resolves: either `respond_user_input(response)` set the rendezvous event
within the window (carrying the stored `_user_input_response`, which the
responder always sets to a string just before signalling, so `none` models
only the degenerate unset slot), or the window elapsed. -/
inductive WaitOutcome where
  | signalled (resp : Option String)
  | timedOut
deriving DecidableEq, Repr

/-- The two errors `request_user_input` can raise: the
`RuntimeError("用户取消了操作")` for a `cancel` response, and the
`TimeoutError("用户输入超时")` on expiry. -/
inductive UserInputError where
  | userCancelled
  | inputTimeout
deriving DecidableEq, Repr

/-- The slice of the execution context that `request_user_input` reads and
writes: whether a streaming channel is connected, and the current status. -/
structure UCtx where
  websocket : Bool
  status : ExecutionStatus
deriving DecidableEq, Repr

/-- Observable actions of `request_user_input`, in order: status writes
and the `USER_INPUT_REQUIRED` message. -/
inductive CtxEvent where
  | setStatus (s : ExecutionStatus)
  | userInputRequired
deriving DecidableEq, Repr

/-- Result of one `request_user_input` call: the ordered actions taken,
the context afterwards, and the returned value or raised error. -/
structure UserInputResult where
  trace : List CtxEvent
  final : UCtx
  result : Except UserInputError (Option String)

/-- Shallow embedding of `ExecutionContext.request_user_input(prompt,
timeout)` from `backend/engine/context.py`.  With a websocket: remember
the previous status, set status to `paused`, create a fresh rendezvous,
emit `USER_INPUT_REQUIRED`, and wait; on signal restore the previous
status and return the stored response unless it is `"cancel"`, which
raises `userCancelled`; on timeout restore the previous status and raise
`inputTimeout`.  Without a websocket the body is skipped entirely and
`None` is returned.  (`prompt` and the numeric `timeout` only flow into
the emitted message and the wall-clock wait, which `WaitOutcome`
abstracts.) -/
def request_user_input (ctx : UCtx) (outcome : WaitOutcome) : UserInputResult :=
  if ctx.websocket then
    let previous := ctx.status
    match outcome with
    | .signalled resp =>
      if resp = some "cancel" then
        ⟨[.setStatus .paused, .userInputRequired, .setStatus previous],
          ⟨ctx.websocket, previous⟩, .error .userCancelled⟩
      else
        ⟨[.setStatus .paused, .userInputRequired, .setStatus previous],
          ⟨ctx.websocket, previous⟩, .ok resp⟩
    | .timedOut =>
      ⟨[.setStatus .paused, .userInputRequired, .setStatus previous],
        ⟨ctx.websocket, previous⟩, .error .inputTimeout⟩
  else ⟨[], ctx, .ok Option.none⟩

/-!
AI intervention detector (`backend/engine/ai/intervention.py`).

`json.loads` and the float conversion of arbitrary strings are Python
library functions; they enter the model as oracle parameters
(`loads : String → Option Json`, with `none` for `json.JSONDecodeError`,
and `strFloatable : String → Bool` for whether `float(s)` succeeds).
The HTTP call of `_call_llm_for_detection` — including the missing-API-key
`ValueError`, `raise_for_status`, and the indexing into the response — is
abstracted as `llm : Except PyErr String` delivering the message content.
-/

/-- JSON values as returned by `json.loads` (numbers as `Int`; the claims
never depend on fractional values). -/
inductive Json where
  | null
  | jbool (b : Bool)
  | jnum (n : Int)
  | jstr (s : String)
  | jarr (items : List Json)
  | jobj (fields : List (String × Json))

/-- Python exception classes distinguished by the modelled code. -/
inductive PyErr where
  | typeError
  | valueError
  | attributeError
  | otherError
deriving DecidableEq, Repr

/-- Whether the character sequence `pat` occurs contiguously inside `s`
(Python's `sub in s` on strings). -/
def containsSeq (pat : List Char) : List Char → Bool
  | [] => pat.isEmpty
  | c :: rest => pat.isPrefixOf (c :: rest) || containsSeq pat rest

/-- Python `==` between a JSON value and a string (only strings compare
equal to strings). -/
def jsonEqStr (j : Json) (s : String) : Bool :=
  match j with
  | .jstr t => t = s
  | _ => false

/-- Python `key in result` for a `json.loads` result: key membership for
dicts, element equality for lists, substring for strings, `TypeError`
for numbers, booleans and `None`. -/
def pyIn (key : String) (j : Json) : Except PyErr Bool :=
  match j with
  | .jobj fields => .ok (fields.any (fun kv => kv.1 = key))
  | .jarr items => .ok (items.any (fun it => jsonEqStr it key))
  | .jstr s => .ok (containsSeq key.toList s.toList)
  | _ => .error .typeError

/-- Python `result.get(key)` for a `json.loads` result: `AttributeError`
unless `result` is a dict; `none` models an absent key (so the caller's
literal default applies).  With duplicate keys `json.loads` keeps the
last one. -/
def pyDictGet (j : Json) (key : String) : Except PyErr (Option Json) :=
  match j with
  | .jobj fields => .ok (jsonAssocLast fields key)
  | _ => .error .attributeError
where
  jsonAssocLast : List (String × Json) → String → Option Json
    | [], _ => Option.none
    | (k, v) :: rest, key => match jsonAssocLast rest key with
      | Option.none => if k = key then some v else Option.none
      | some r => some r

/-- Python truthiness `bool(j)` of a JSON value. -/
def jTruthy : Json → Bool
  | .null => false
  | .jbool b => b
  | .jnum n => decide (n ≠ 0)
  | .jstr s => decide (s ≠ "")
  | .jarr items => !items.isEmpty
  | .jobj fields => !fields.isEmpty

/-- Whether Python `float(j)` succeeds: numbers and booleans convert,
strings convert iff the oracle `strFloatable` says so, everything else
raises `TypeError`. -/
def jFloatable (strFloatable : String → Bool) : Json → Bool
  | .jnum _ => true
  | .jbool _ => true
  | .jstr s => strFloatable s
  | _ => false

/-- The detection-result dict assembled by `_parse_detection_result` /
`detect`.  `confidence` and the defaulted fields keep their raw JSON
value (`none` = the literal Python default was used: `0.5`, `"未知"`,
`"未提供原因"` respectively, or a fallback-path literal). -/
structure DetectResult where
  needs_intervention : Bool
  intervention_type : Option Json
  confidence : Option Json
  reason : Option Json

/-- Python `str.strip()` (whitespace at both ends). -/
def pyStrip (s : String) : String :=
  String.mk ((s.toList.dropWhile Char.isWhitespace).reverse.dropWhile
    Char.isWhitespace).reverse

/-- The fenced-code-block stripping in `_parse_detection_result`: when the
stripped text starts with three backticks, drop the first line, and also
the last line when it strips to three backticks. -/
def stripFence (text : String) : String :=
  if text.startsWith "```" then
    let lines := text.splitOn "\n"
    if pyStrip (lines.getLastD "") = "```" then
      String.intercalate "\n" (lines.drop 1).dropLast
    else
      String.intercalate "\n" (lines.drop 1)
  else text

/-- Python `str.lower()` (ASCII model; the Chinese keywords are unaffected
by case). -/
def pyLower (s : String) : String :=
  String.mk (s.toList.map Char.toLower)

/-- The negative keywords consulted when the JSON fails to parse. -/
def negativeKeywords : List String :=
  ["不需要", "无需", "no intervention", "not needed"]

/-- `any(kw in text.lower() for kw in negative_keywords)`. -/
def hasNegativeKeyword (text : String) : Bool :=
  negativeKeywords.any (fun kw => containsSeq kw.toList (pyLower text).toList)

/-- Shallow embedding of
`AIInterventionDetector._parse_detection_result(content)`: strip, remove a
fenced code block, `json.loads`; on success require the
`needs_intervention` field (else `ValueError`) and assemble the result
dict (each `result.get` raising `AttributeError` on non-dicts, the
`float(...)` conversion raising on non-convertible values); on
`json.JSONDecodeError` fall back to the negative-keyword heuristic, which
never raises. -/
def parseDetectionResult (loads : String → Option Json)
    (strFloatable : String → Bool) (content : String) :
    Except PyErr DetectResult :=
  let text := stripFence (pyStrip content)
  match loads text with
  | some result => do
    let mem ← pyIn "needs_intervention" result
    if !mem then
      .error .valueError
    else do
      let ni ← pyDictGet result "needs_intervention"
      let it ← pyDictGet result "intervention_type"
      let conf ← pyDictGet result "confidence"
      match conf with
      | some c =>
        if !(jFloatable strFloatable c) then .error .valueError
        else do
          let rs ← pyDictGet result "reason"
          .ok ⟨(ni.map jTruthy).getD true, it, conf, rs⟩
      | Option.none => do
        let rs ← pyDictGet result "reason"
        .ok ⟨(ni.map jTruthy).getD true, it, conf, rs⟩
  | Option.none =>
    if hasNegativeKeyword text then
      .ok ⟨false, some Json.null, Option.none, Option.none⟩
    else
      .ok ⟨true, some (Json.jstr "未知"), Option.none, Option.none⟩

/-- Shallow embedding of `AIInterventionDetector.detect(screenshot)`:
run the LLM call and the parse; any raised exception is caught and
replaced by the safety default `needs_intervention = True`. -/
def detect (loads : String → Option Json) (strFloatable : String → Bool)
    (llm : Except PyErr String) : DetectResult :=
  match (do
      let content ← llm
      parseDetectionResult loads strFloatable content) with
  | .ok r => r
  | .error _ => ⟨true, some (Json.jstr "未知"), Option.none, Option.none⟩

/-- Python truthiness of a `PyVal` (for `config.get(...)` flags). -/
def pyTruthy : PyVal → Bool
  | .str s => decide (s ≠ "")
  | .int n => decide (n ≠ 0)
  | .bool b => b
  | .none => false
  | .list items => !items.isEmpty
  | .dict items => !items.isEmpty

/-- Result of one `WorkflowExecutor._check_ai_intervention` call:
whether the node was gated behind `request_user_input`, the
user-interaction trace, the context afterwards, and whether a
user-cancelled error propagates to the caller (the only exception the
method re-raises — its message contains `"用户取消"`; every other failure
is logged and swallowed). -/
structure GateResult where
  requestedInput : Bool
  emittedInterventionEvent : Bool
  final : UCtx
  raisedUserCancel : Bool
deriving DecidableEq, Repr

/-- Shallow embedding of `WorkflowExecutor._check_ai_intervention`:
skip unless the resolved config's `enable_ai_intervention` is truthy and a
page exists; screenshot the page (failure is caught and swallowed), run
`detect`, and when it reports `needs_intervention` emit
`AI_INTERVENTION_REQUIRED` (if a websocket is connected) and block on
`request_user_input(..., timeout=600)`; a `cancel` response surfaces as a
user-cancelled error (re-raised by the catch-all since its message
contains `"用户取消"`); a timeout is swallowed by the catch-all and the
walk continues. -/
def check_ai_intervention (loads : String → Option Json)
    (strFloatable : String → Bool) (llm : Except PyErr String)
    (screenshotOk : Bool) (ctx : UCtx) (hasPage : Bool)
    (cfg : List (String × PyVal)) (outcome : WaitOutcome) : GateResult :=
  let enable := pyTruthy ((pyGet cfg "enable_ai_intervention").getD (.bool false))
  if !enable then ⟨false, false, ctx, false⟩
  else if !hasPage then ⟨false, false, ctx, false⟩
  else if !screenshotOk then ⟨false, false, ctx, false⟩
  else
    let det := detect loads strFloatable llm
    if det.needs_intervention then
      let r := request_user_input ctx outcome
      match r.result with
      | .error .userCancelled => ⟨true, ctx.websocket, r.final, true⟩
      | .error .inputTimeout => ⟨true, ctx.websocket, r.final, false⟩
      | .ok resp =>
        if resp = some "cancel" then ⟨true, ctx.websocket, r.final, true⟩
        else ⟨true, ctx.websocket, r.final, false⟩
    else ⟨false, false, ctx, false⟩

/-!
Scheduler / executor state machine
(`WorkflowExecutor.execute` / `_run_workflow` in
`backend/engine/executor.py`), restricted to the fields the claims are
about: `status`, `current_node_id`, and the set of nodes whose executor
function was invoked.  Browser, websocket and recorder I/O are dropped;
the action executors, the registry lookup and the AI gate enter as
oracles.  The model is sequential: the concurrent `stop()` that can flip
the status between checkpoints is not modelled, so the in-loop
cancellation checkpoints are present but never fire.
-/

/-- A workflow node as the executor reads it: `id`, `type` and the
free-form `config` dict. -/
structure Node where
  id : String
  type : String
  config : List (String × PyVal)

/-- A workflow document: `{id, nodes, edges}` (the `id` plays no role in
the modelled logic). -/
structure Workflow where
  nodes : List Node
  edges : List Edge

/-- The dict comprehension `nodes_map = {node["id"]: node for node in
nodes}` — later duplicates win. -/
def nodesMapOf (nodes : List Node) (i : String) : Option Node :=
  (nodes.filter (fun nd => nd.id = i)).getLast?

/-- How one `execute_func(context, resolved_config)` call resolves. -/
inductive NodeOut where
  | ok
  | raiseErr
  | targetClosed
deriving DecidableEq, Repr

/-- Oracles for the per-node external calls of the walk. -/
structure ExecOracles where
  knownType : String → Bool
  outcome : String → NodeOut
  gateRaises : String → Bool

/-- How control leaves the node walk: normal loop exit (`fin`, including
`break` on cancellation), early `return` (the target-closed path), a
raised exception (`exc`, reaching `execute`'s `except Exception`), or an
`asyncio.CancelledError` (`cancelledExc`, which `except Exception` does
not catch). -/
inductive ExitKind where
  | fin
  | ret
  | exc
  | cancelledExc
deriving DecidableEq, Repr

/-- The per-run state the claims quantify over. -/
structure RunState where
  status : ExecutionStatus
  current_node_id : Option String
  executed : List String
deriving DecidableEq, Repr

/-- The `for node_id in execution_order:` walk of `_run_workflow`:
skip ids without a node, set `current_node_id`, look up the action
(unknown types raise `ValueError`), run the cancellation checkpoint and
the AI gate, invoke the executor function, and dispatch on its outcome
(success continues; a target-closed driver error flips the status to
`cancelled` and returns; any other exception propagates).
`current_node_id` is never reset on any path. -/
def runNodes (o : ExecOracles) (nmap : String → Option Node) :
    List String → RunState → RunState × ExitKind
  | [], st => (st, .fin)
  | nid :: rest, st =>
    if st.status = .cancelled then (st, .fin)
    else match nmap nid with
    | Option.none => runNodes o nmap rest st
    | some node =>
      let st1 : RunState := {st with current_node_id := some nid}
      if !(o.knownType node.type) then (st1, .exc)
      else if st1.status = .cancelled then (st1, .cancelledExc)
      else if o.gateRaises nid then (st1, .exc)
      else
        let st2 : RunState := {st1 with executed := st1.executed ++ [nid]}
        match o.outcome nid with
        | .ok =>
          if st2.status = .cancelled then (st2, .cancelledExc)
          else runNodes o nmap rest st2
        | .targetClosed => ({st2 with status := .cancelled}, .ret)
        | .raiseErr => (st2, .exc)

/-- Shallow embedding of `_run_workflow(context, workflow)`: set status to
`running`, connect the browser (`connect` abstracts the
`BrowserManager.connect` call — see `connectCallAccepted` for the
keyword-binding issue of the real call), compute the execution order with
`topological_sort`, walk it, and on normal loop exit set status
`completed` unless the run was cancelled.  No cycle or length validation
of the order exists on any path. -/
def run_workflow (o : ExecOracles) (wf : Workflow) (setOrder : List String)
    (connect : Except Unit Unit) : RunState × ExitKind :=
  let st0 : RunState := ⟨.running, Option.none, []⟩
  match connect with
  | .error _ => (st0, .exc)
  | .ok _ =>
    let execution_order := topological_sort setOrder wf.edges
    let r := runNodes o (nodesMapOf wf.nodes) execution_order st0
    match r.2 with
    | .fin =>
      if r.1.status = .cancelled then (r.1, .fin)
      else ({r.1 with status := .completed}, .fin)
    | ek => (r.1, ek)

/-- Shallow embedding of `WorkflowExecutor.execute(...)`: run the walk and
catch any `Exception` by stamping status `failed` (an
`asyncio.CancelledError` is not an `Exception` and passes through). -/
def executeModel (o : ExecOracles) (wf : Workflow) (setOrder : List String)
    (connect : Except Unit Unit) : RunState :=
  let r := run_workflow o wf setOrder connect
  match r.2 with
  | .exc => {r.1 with status := .failed}
  | _ => r.1

/-!
The keyword-argument contract between `WorkflowExecutor._run_workflow`
and `BrowserManager.connect` (claim C3).  Python binds a call's keyword
arguments against the callee's parameter names; a keyword that matches no
parameter raises `TypeError: connect() got an unexpected keyword
argument '...'` before the body runs.
-/

/-- The parameter names of `BrowserManager.connect(self, context,
headless=True)` from `backend/engine/browser_manager.py` (excluding
`self`).  The method has no `storage_state` parameter and no `**kwargs`. -/
def browserConnectParams : List String := ["context", "headless"]

/-- The keyword names `_run_workflow` passes in
`browser_mgr.connect(context, headless=headless,
storage_state=storage_state)` (the one positional argument binds
`context`). -/
def runWorkflowConnectKwargs : List String := ["headless", "storage_state"]

/-- Python call binding: with `npos` positional arguments consumed, every
keyword must name one of the remaining parameters, else `TypeError`. -/
def pyCallBinds (params : List String) (npos : Nat) (kwargs : List String) : Bool :=
  decide (npos ≤ params.length) &&
    kwargs.all (fun k => decide (k ∈ params.drop npos))

/-- Whether the executor's `connect(...)` call binds without a
`TypeError`. -/
def connectCallAccepted : Bool :=
  pyCallBinds browserConnectParams 1 runWorkflowConnectKwargs

/-!
Lemmas about the interpolator scanner.
-/

theorem scanView_empty_sound (cs : List Char) (h : scanView cs = .empty) : cs = [] := by
  match cs with
  | [] => rfl
  | [a] => simp [scanView] at h
  | a :: a2 :: rest2 =>
    exfalso
    simp only [scanView] at h
    by_cases hc : a = '\x7b'
    case neg => rw [if_neg hc] at h; exact ScanStep.noConfusion h
    rw [if_pos hc] at h
    by_cases hc2 : a2 = '\x7b'
    case neg => rw [if_neg hc2] at h; exact ScanStep.noConfusion h
    rw [if_pos hc2] at h
    by_cases hm : rest2.takeWhile isWordChar ≠ [] ∧
        (rest2.dropWhile isWordChar).take 2 = ['\x7d', '\x7d']
    · rw [if_pos hm] at h; exact ScanStep.noConfusion h
    · rw [if_neg hm] at h; exact ScanStep.noConfusion h

theorem scanView_noBrace_sound (cs : List Char) (c : Char) (rest : List Char)
    (h : scanView cs = .noBrace c rest) : cs = c :: rest := by
  match cs with
  | [] => simp [scanView] at h
  | [a] =>
    simp only [scanView] at h
    obtain ⟨h1, h2⟩ := ScanStep.noBrace.inj h
    rw [h1, h2]
  | a :: a2 :: rest2 =>
    simp only [scanView] at h
    by_cases hc : a = '\x7b'
    case neg =>
      rw [if_neg hc] at h
      obtain ⟨h1, h2⟩ := ScanStep.noBrace.inj h
      rw [h1, h2]
    rw [if_pos hc] at h
    by_cases hc2 : a2 = '\x7b'
    case neg =>
      rw [if_neg hc2] at h
      obtain ⟨h1, h2⟩ := ScanStep.noBrace.inj h
      rw [h1, h2]
    rw [if_pos hc2] at h
    by_cases hm : rest2.takeWhile isWordChar ≠ [] ∧
        (rest2.dropWhile isWordChar).take 2 = ['\x7d', '\x7d']
    · rw [if_pos hm] at h; exact ScanStep.noConfusion h
    · rw [if_neg hm] at h; exact ScanStep.noConfusion h

theorem scanView_braceNoMatch_sound (cs : List Char) (rest : List Char)
    (h : scanView cs = .braceNoMatch rest) : cs = '\x7b' :: rest := by
  match cs with
  | [] => simp [scanView] at h
  | [a] => simp [scanView] at h
  | a :: a2 :: rest2 =>
    simp only [scanView] at h
    by_cases hc : a = '\x7b'
    case neg => rw [if_neg hc] at h; exact ScanStep.noConfusion h
    rw [if_pos hc] at h
    by_cases hc2 : a2 = '\x7b'
    case neg => rw [if_neg hc2] at h; exact ScanStep.noConfusion h
    rw [if_pos hc2] at h
    by_cases hm : rest2.takeWhile isWordChar ≠ [] ∧
        (rest2.dropWhile isWordChar).take 2 = ['\x7d', '\x7d']
    · rw [if_pos hm] at h; exact ScanStep.noConfusion h
    · rw [if_neg hm] at h
      obtain h1 := ScanStep.braceNoMatch.inj h
      rw [hc, h1]

theorem scanView_matched_sound (cs : List Char) (w r3 : List Char)
    (h : scanView cs = .matched w r3) :
    cs = bracedChars w ++ r3 ∧ w ≠ [] ∧ ∀ c ∈ w, isWordChar c = true := by
  match cs with
  | [] => simp [scanView] at h
  | [a] => simp [scanView] at h
  | a :: a2 :: rest2 =>
    simp only [scanView] at h
    by_cases hc : a = '\x7b'
    case neg => rw [if_neg hc] at h; exact ScanStep.noConfusion h
    rw [if_pos hc] at h
    by_cases hc2 : a2 = '\x7b'
    case neg => rw [if_neg hc2] at h; exact ScanStep.noConfusion h
    rw [if_pos hc2] at h
    by_cases hm : rest2.takeWhile isWordChar ≠ [] ∧
        (rest2.dropWhile isWordChar).take 2 = ['\x7d', '\x7d']
    case neg => rw [if_neg hm] at h; exact ScanStep.noConfusion h
    rw [if_pos hm] at h
    obtain ⟨hw, hr⟩ := ScanStep.matched.inj h
    have hd : rest2.dropWhile isWordChar =
        '\x7d' :: '\x7d' :: (rest2.dropWhile isWordChar).drop 2 := by
      conv_lhs => rw [← List.take_append_drop 2 (rest2.dropWhile isWordChar)]
      rw [hm.2]
      rfl
    refine ⟨?_, ?_, ?_⟩
    · rw [← hw, ← hr, bracedChars, hc, hc2]
      have hsplit := List.takeWhile_append_dropWhile (p := isWordChar) (l := rest2)
      conv_lhs => rw [← hsplit]
      conv_lhs => rw [hd]
      simp
    · rw [← hw]; exact hm.1
    · intro x hx
      rw [← hw] at hx
      exact List.mem_takeWhile_imp hx

theorem scanView_cons_of_ne (c : Char) (rest : List Char) (hc : c ≠ '\x7b') :
    scanView (c :: rest) = .noBrace c rest := by
  match rest with
  | [] => simp [scanView]
  | a2 :: rest2 =>
    simp only [scanView]
    rw [if_neg hc]

theorem scanView_brace_single : scanView ['\x7b'] = .noBrace '\x7b' [] := rfl

theorem scanView_brace_of_ne (c2 : Char) (rest : List Char) (hc2 : c2 ≠ '\x7b') :
    scanView ('\x7b' :: c2 :: rest) = .noBrace '\x7b' (c2 :: rest) := by
  simp only [scanView]
  rw [if_pos trivial, if_neg hc2]

theorem scanView_bb_match (rest2 : List Char)
    (h1 : rest2.takeWhile isWordChar ≠ [])
    (h2 : (rest2.dropWhile isWordChar).take 2 = ['\x7d', '\x7d']) :
    scanView ('\x7b' :: '\x7b' :: rest2) =
      .matched (rest2.takeWhile isWordChar) ((rest2.dropWhile isWordChar).drop 2) := by
  simp only [scanView]
  rw [if_pos trivial, if_pos trivial, if_pos ⟨h1, h2⟩]

theorem scanView_bb_noMatch (rest2 : List Char)
    (h : ¬(rest2.takeWhile isWordChar ≠ [] ∧
      (rest2.dropWhile isWordChar).take 2 = ['\x7d', '\x7d'])) :
    scanView ('\x7b' :: '\x7b' :: rest2) = .braceNoMatch ('\x7b' :: rest2) := by
  simp only [scanView]
  rw [if_pos trivial, if_pos trivial, if_neg h]

theorem takeWhile_append_all (p : Char → Bool) (w l : List Char)
    (h : ∀ c ∈ w, p c = true) :
    (w ++ l).takeWhile p = w ++ l.takeWhile p := by
  induction w with
  | nil => simp
  | cons c cs ih =>
    have hc : p c = true := h c (by simp)
    simp only [List.cons_append, List.takeWhile_cons, hc, if_true]
    rw [ih (fun x hx => h x (by simp [hx]))]

theorem dropWhile_append_all (p : Char → Bool) (w l : List Char)
    (h : ∀ c ∈ w, p c = true) :
    (w ++ l).dropWhile p = l.dropWhile p := by
  induction w with
  | nil => simp
  | cons c cs ih =>
    have hc : p c = true := h c (by simp)
    simp only [List.cons_append, List.dropWhile_cons, hc, if_true]
    exact ih (fun x hx => h x (by simp [hx]))

theorem takeWhile_cons_neg (p : Char → Bool) (c : Char) (l : List Char)
    (h : p c = false) : (c :: l).takeWhile p = [] := by
  simp [List.takeWhile_cons, h]

theorem dropWhile_cons_neg (p : Char → Bool) (c : Char) (l : List Char)
    (h : p c = false) : (c :: l).dropWhile p = c :: l := by
  simp [List.dropWhile_cons, h]

theorem isWordChar_lbrace : isWordChar '\x7b' = false := by decide

theorem isWordChar_rbrace : isWordChar '\x7d' = false := by decide

/-- Computing the scan on a string that starts with a well-formed match. -/
theorem scanView_braced (w r : List Char) (hw : w ≠ [])
    (hword : ∀ c ∈ w, isWordChar c = true) :
    scanView (bracedChars w ++ r) = .matched w r := by
  have htw : (w ++ '\x7d' :: '\x7d' :: r).takeWhile isWordChar = w := by
    rw [takeWhile_append_all _ _ _ hword, takeWhile_cons_neg _ _ _ isWordChar_rbrace,
      List.append_nil]
  have hdw : (w ++ '\x7d' :: '\x7d' :: r).dropWhile isWordChar = '\x7d' :: '\x7d' :: r := by
    rw [dropWhile_append_all _ _ _ hword, dropWhile_cons_neg _ _ _ isWordChar_rbrace]
  have : bracedChars w ++ r = '\x7b' :: '\x7b' :: (w ++ '\x7d' :: '\x7d' :: r) := by
    simp [bracedChars]
  rw [this, scanView_bb_match _ (by rw [htw]; exact hw) (by rw [hdw]; rfl), htw, hdw]
  rfl

theorem substChars_fuel_irrelevant (lookup : String → Option String) :
    ∀ f1 f2 cs, cs.length ≤ f1 → cs.length ≤ f2 →
      substChars lookup f1 cs = substChars lookup f2 cs := by
  intro f1
  induction f1 with
  | zero =>
    intro f2 cs h1 _
    have : cs = [] := List.eq_nil_of_length_eq_zero (Nat.le_zero.mp h1)
    subst this
    match f2 with
    | 0 => rfl
    | f2 + 1 => simp [substChars, scanView]
  | succ f1 ih =>
    intro f2 cs h1 h2
    match f2 with
    | 0 =>
      have : cs = [] := List.eq_nil_of_length_eq_zero (Nat.le_zero.mp h2)
      subst this
      simp [substChars, scanView]
    | f2 + 1 =>
      cases hv : scanView cs with
      | empty => simp only [substChars, hv]
      | noBrace c rest =>
        have hcs := scanView_noBrace_sound cs c rest hv
        subst hcs
        simp only [List.length_cons] at h1 h2
        simp only [substChars, hv]
        rw [ih f2 rest (by omega) (by omega)]
      | braceNoMatch rest =>
        have hcs := scanView_braceNoMatch_sound cs rest hv
        subst hcs
        simp only [List.length_cons] at h1 h2
        simp only [substChars, hv]
        rw [ih f2 rest (by omega) (by omega)]
      | matched w r3 =>
        have hcs := (scanView_matched_sound cs w r3 hv).1
        subst hcs
        have hb : (bracedChars w ++ r3).length = w.length + 4 + r3.length := by
          simp [bracedChars]; omega
        rw [hb] at h1 h2
        simp only [substChars, hv]
        rw [ih f2 r3 (by omega) (by omega)]

theorem hasKnownOcc_fuel_irrelevant (lookup : String → Option String) :
    ∀ f1 f2 cs, cs.length ≤ f1 → cs.length ≤ f2 →
      hasKnownOcc lookup f1 cs = hasKnownOcc lookup f2 cs := by
  intro f1
  induction f1 with
  | zero =>
    intro f2 cs h1 _
    have : cs = [] := List.eq_nil_of_length_eq_zero (Nat.le_zero.mp h1)
    subst this
    match f2 with
    | 0 => rfl
    | f2 + 1 => simp [hasKnownOcc, scanView]
  | succ f1 ih =>
    intro f2 cs h1 h2
    match f2 with
    | 0 =>
      have : cs = [] := List.eq_nil_of_length_eq_zero (Nat.le_zero.mp h2)
      subst this
      simp [hasKnownOcc, scanView]
    | f2 + 1 =>
      cases hv : scanView cs with
      | empty => simp only [hasKnownOcc, hv]
      | noBrace c rest =>
        have hcs := scanView_noBrace_sound cs c rest hv
        subst hcs
        simp only [List.length_cons] at h1 h2
        simp only [hasKnownOcc, hv]
        rw [ih f2 rest (by omega) (by omega)]
      | braceNoMatch rest =>
        have hcs := scanView_braceNoMatch_sound cs rest hv
        subst hcs
        simp only [List.length_cons] at h1 h2
        simp only [hasKnownOcc, hv]
        rw [ih f2 rest (by omega) (by omega)]
      | matched w r3 =>
        have hcs := (scanView_matched_sound cs w r3 hv).1
        subst hcs
        have hb : (bracedChars w ++ r3).length = w.length + 4 + r3.length := by
          simp [bracedChars]; omega
        rw [hb] at h1 h2
        simp only [hasKnownOcc, hv]
        rw [ih f2 r3 (by omega) (by omega)]

theorem hasAnyMatch_fuel_irrelevant :
    ∀ f1 f2 cs, cs.length ≤ f1 → cs.length ≤ f2 →
      hasAnyMatch f1 cs = hasAnyMatch f2 cs := by
  intro f1
  induction f1 with
  | zero =>
    intro f2 cs h1 _
    have : cs = [] := List.eq_nil_of_length_eq_zero (Nat.le_zero.mp h1)
    subst this
    match f2 with
    | 0 => rfl
    | f2 + 1 => simp [hasAnyMatch, scanView]
  | succ f1 ih =>
    intro f2 cs h1 h2
    match f2 with
    | 0 =>
      have : cs = [] := List.eq_nil_of_length_eq_zero (Nat.le_zero.mp h2)
      subst this
      simp [hasAnyMatch, scanView]
    | f2 + 1 =>
      cases hv : scanView cs with
      | empty => simp only [hasAnyMatch, hv]
      | noBrace c rest =>
        have hcs := scanView_noBrace_sound cs c rest hv
        subst hcs
        simp only [List.length_cons] at h1 h2
        simp only [hasAnyMatch, hv]
        rw [ih f2 rest (by omega) (by omega)]
      | braceNoMatch rest =>
        have hcs := scanView_braceNoMatch_sound cs rest hv
        subst hcs
        simp only [List.length_cons] at h1 h2
        simp only [hasAnyMatch, hv]
        rw [ih f2 rest (by omega) (by omega)]
      | matched w r3 => simp only [hasAnyMatch, hv]

theorem substRun_step (lookup : String → Option String) (cs : List Char) :
    substRun lookup cs = match scanView cs with
      | .empty => []
      | .noBrace c rest => c :: substRun lookup rest
      | .braceNoMatch rest => '\x7b' :: substRun lookup rest
      | .matched w r3 => substName lookup w ++ substRun lookup r3 := by
  cases hv : scanView cs with
  | empty =>
    have := scanView_empty_sound cs hv
    subst this
    rfl
  | noBrace c rest =>
    have hcs := scanView_noBrace_sound cs c rest hv
    subst hcs
    simp only [substRun, List.length_cons, substChars, hv]
  | braceNoMatch rest =>
    have hcs := scanView_braceNoMatch_sound cs rest hv
    subst hcs
    simp only [substRun, List.length_cons, substChars, hv]
  | matched w r3 =>
    have hcs := (scanView_matched_sound cs w r3 hv).1
    subst hcs
    have hb : (bracedChars w ++ r3).length = (w.length + 3 + r3.length) + 1 := by
      simp [bracedChars]; omega
    rw [substRun, hb]
    simp only [substChars, hv]
    rw [substChars_fuel_irrelevant lookup (w.length + 3 + r3.length) r3.length r3
      (by omega) (by omega)]
    rfl

theorem knownRun_step (lookup : String → Option String) (cs : List Char) :
    knownRun lookup cs = match scanView cs with
      | .empty => false
      | .noBrace _ rest => knownRun lookup rest
      | .braceNoMatch rest => knownRun lookup rest
      | .matched w r3 => (lookup (String.mk w)).isSome || knownRun lookup r3 := by
  cases hv : scanView cs with
  | empty =>
    have := scanView_empty_sound cs hv
    subst this
    rfl
  | noBrace c rest =>
    have hcs := scanView_noBrace_sound cs c rest hv
    subst hcs
    simp only [knownRun, List.length_cons, hasKnownOcc, hv]
  | braceNoMatch rest =>
    have hcs := scanView_braceNoMatch_sound cs rest hv
    subst hcs
    simp only [knownRun, List.length_cons, hasKnownOcc, hv]
  | matched w r3 =>
    have hcs := (scanView_matched_sound cs w r3 hv).1
    subst hcs
    have hb : (bracedChars w ++ r3).length = (w.length + 3 + r3.length) + 1 := by
      simp [bracedChars]; omega
    rw [knownRun, hb]
    simp only [hasKnownOcc, hv]
    rw [hasKnownOcc_fuel_irrelevant lookup (w.length + 3 + r3.length) r3.length r3
      (by omega) (by omega)]
    rfl

theorem anyRun_step (cs : List Char) :
    anyRun cs = match scanView cs with
      | .empty => false
      | .noBrace _ rest => anyRun rest
      | .braceNoMatch rest => anyRun rest
      | .matched _ _ => true := by
  cases hv : scanView cs with
  | empty =>
    have := scanView_empty_sound cs hv
    subst this
    rfl
  | noBrace c rest =>
    have hcs := scanView_noBrace_sound cs c rest hv
    subst hcs
    simp only [anyRun, List.length_cons, hasAnyMatch, hv]
  | braceNoMatch rest =>
    have hcs := scanView_braceNoMatch_sound cs rest hv
    subst hcs
    simp only [anyRun, List.length_cons, hasAnyMatch, hv]
  | matched w r3 =>
    have hcs := (scanView_matched_sound cs w r3 hv).1
    subst hcs
    have hb : (bracedChars w ++ r3).length = (w.length + 3 + r3.length) + 1 := by
      simp [bracedChars]; omega
    rw [anyRun, hb]
    simp only [hasAnyMatch, hv]

theorem substRun_empty (lookup : String → Option String) : substRun lookup [] = [] := rfl

theorem substRun_noBrace (lookup : String → Option String) (cs : List Char)
    (c : Char) (rest : List Char) (hv : scanView cs = .noBrace c rest) :
    substRun lookup cs = c :: substRun lookup rest := by
  rw [substRun_step lookup cs, hv]

theorem substRun_braceNoMatch (lookup : String → Option String) (cs : List Char)
    (rest : List Char) (hv : scanView cs = .braceNoMatch rest) :
    substRun lookup cs = '\x7b' :: substRun lookup rest := by
  rw [substRun_step lookup cs, hv]

theorem substRun_matched (lookup : String → Option String) (cs : List Char)
    (w r3 : List Char) (hv : scanView cs = .matched w r3) :
    substRun lookup cs = substName lookup w ++ substRun lookup r3 := by
  rw [substRun_step lookup cs, hv]

theorem knownRun_noBrace (lookup : String → Option String) (cs : List Char)
    (c : Char) (rest : List Char) (hv : scanView cs = .noBrace c rest) :
    knownRun lookup cs = knownRun lookup rest := by
  rw [knownRun_step lookup cs, hv]

theorem knownRun_braceNoMatch (lookup : String → Option String) (cs : List Char)
    (rest : List Char) (hv : scanView cs = .braceNoMatch rest) :
    knownRun lookup cs = knownRun lookup rest := by
  rw [knownRun_step lookup cs, hv]

theorem knownRun_matched (lookup : String → Option String) (cs : List Char)
    (w r3 : List Char) (hv : scanView cs = .matched w r3) :
    knownRun lookup cs = ((lookup (String.mk w)).isSome || knownRun lookup r3) := by
  rw [knownRun_step lookup cs, hv]

theorem anyRun_noBrace (cs : List Char) (c : Char) (rest : List Char)
    (hv : scanView cs = .noBrace c rest) : anyRun cs = anyRun rest := by
  rw [anyRun_step cs, hv]

theorem anyRun_braceNoMatch (cs : List Char) (rest : List Char)
    (hv : scanView cs = .braceNoMatch rest) : anyRun cs = anyRun rest := by
  rw [anyRun_step cs, hv]

theorem anyRun_matched (cs : List Char) (w r3 : List Char)
    (hv : scanView cs = .matched w r3) : anyRun cs = true := by
  rw [anyRun_step cs, hv]

/-- If the scan finds no match with a known identifier, the substitution
is the identity. -/
theorem substRun_id_of_not_known (lookup : String → Option String) :
    ∀ n cs, cs.length ≤ n → knownRun lookup cs = false →
      substRun lookup cs = cs := by
  intro n
  induction n with
  | zero =>
    intro cs hlen _
    have : cs = [] := List.eq_nil_of_length_eq_zero (Nat.le_zero.mp hlen)
    subst this
    rfl
  | succ n ih =>
    intro cs hlen hk
    cases hv : scanView cs with
    | empty =>
      have := scanView_empty_sound cs hv
      subst this
      rfl
    | noBrace c rest =>
      have hcs := scanView_noBrace_sound cs c rest hv
      subst hcs
      rw [substRun_noBrace lookup _ c rest hv]
      rw [knownRun_noBrace lookup _ c rest hv] at hk
      simp only [List.length_cons] at hlen
      rw [ih rest (by omega) hk]
    | braceNoMatch rest =>
      have hcs := scanView_braceNoMatch_sound cs rest hv
      subst hcs
      rw [substRun_braceNoMatch lookup _ rest hv]
      rw [knownRun_braceNoMatch lookup _ rest hv] at hk
      simp only [List.length_cons] at hlen
      rw [ih rest (by omega) hk]
    | matched w r3 =>
      have hcs := (scanView_matched_sound cs w r3 hv).1
      subst hcs
      rw [substRun_matched lookup _ w r3 hv]
      rw [knownRun_matched lookup _ w r3 hv] at hk
      simp only [Bool.or_eq_false_iff] at hk
      have hnone : lookup (String.mk w) = Option.none := by
        cases h : lookup (String.mk w) with
        | none => rfl
        | some t => rw [h] at hk; simp at hk
      have hb : (bracedChars w ++ r3).length = w.length + 4 + r3.length := by
        simp [bracedChars]; omega
      rw [hb] at hlen
      rw [substName, hnone, ih r3 (by omega) hk.2]

/-- A scan that finds no match at all finds no known match. -/
theorem knownRun_false_of_anyRun_false (lookup : String → Option String) :
    ∀ n cs, cs.length ≤ n → anyRun cs = false → knownRun lookup cs = false := by
  intro n
  induction n with
  | zero =>
    intro cs hlen _
    have : cs = [] := List.eq_nil_of_length_eq_zero (Nat.le_zero.mp hlen)
    subst this
    rfl
  | succ n ih =>
    intro cs hlen ha
    cases hv : scanView cs with
    | empty =>
      have := scanView_empty_sound cs hv
      subst this
      rfl
    | noBrace c rest =>
      have hcs := scanView_noBrace_sound cs c rest hv
      subst hcs
      rw [knownRun_noBrace lookup _ c rest hv]
      rw [anyRun_noBrace _ c rest hv] at ha
      simp only [List.length_cons] at hlen
      exact ih rest (by omega) ha
    | braceNoMatch rest =>
      have hcs := scanView_braceNoMatch_sound cs rest hv
      subst hcs
      rw [knownRun_braceNoMatch lookup _ rest hv]
      rw [anyRun_braceNoMatch _ rest hv] at ha
      simp only [List.length_cons] at hlen
      exact ih rest (by omega) ha
    | matched w r3 =>
      rw [anyRun_matched _ w r3 hv] at ha
      exact absurd ha (by simp)

theorem dropWhile_head_false (p : Char → Bool) :
    ∀ (l : List Char) (c : Char) (t : List Char),
      l.dropWhile p = c :: t → p c = false := by
  intro l
  induction l with
  | nil => intro c t h; simp at h
  | cons a as ih =>
    intro c t h
    rw [List.dropWhile_cons] at h
    by_cases ha : p a
    · rw [if_pos ha] at h
      exact ih c t h
    · rw [if_neg ha] at h
      cases h
      simpa using ha

theorem all_of_dropWhile_nil (p : Char → Bool) :
    ∀ (l : List Char), l.dropWhile p = [] → ∀ c ∈ l, p c = true := by
  intro l
  induction l with
  | nil => intro _ c hc; simp at hc
  | cons a as ih =>
    intro h c hc
    rw [List.dropWhile_cons] at h
    by_cases ha : p a
    · rcases List.mem_cons.mp hc with rfl | hmem
      · exact ha
      · rw [if_pos ha] at h
        exact ih h c hmem
    · rw [if_neg ha] at h
      exact absurd h (by simp)

/-- Walking the scan through a match-free literal prefix: the literal is
copied verbatim and the first well-formed reference after it is
substituted.  This is the core of the substitution claim: a match can
never straddle the boundary between the literal and the reference. -/
theorem substRun_walk (lookup : String → Option String) :
    ∀ n lit w r, lit.length ≤ n → anyRun lit = false → w ≠ [] →
      (∀ c ∈ w, isWordChar c = true) →
      substRun lookup (lit ++ (bracedChars w ++ r)) =
        lit ++ (substName lookup w ++ substRun lookup r) := by
  intro n
  induction n with
  | zero =>
    intro lit w r hlen _ hw hword
    have : lit = [] := List.eq_nil_of_length_eq_zero (Nat.le_zero.mp hlen)
    subst this
    simp only [List.nil_append]
    exact substRun_matched lookup _ w r (scanView_braced w r hw hword)
  | succ n ih =>
    intro lit w r hlen hany hw hword
    match lit with
    | [] =>
      simp only [List.nil_append]
      exact substRun_matched lookup _ w r (scanView_braced w r hw hword)
    | c :: lit1 =>
      simp only [List.length_cons] at hlen
      by_cases hc : c = '\x7b'
      case neg =>
        have hv := scanView_cons_of_ne c (lit1 ++ (bracedChars w ++ r)) hc
        rw [List.cons_append, substRun_noBrace lookup _ c _ hv]
        have hvl := scanView_cons_of_ne c lit1 hc
        rw [anyRun_noBrace _ c lit1 hvl] at hany
        rw [ih lit1 w r (by omega) hany hw hword]
        rfl
      case pos =>
        subst hc
        match lit1 with
        | [] =>
          -- lit = ['\x7b']: the scan sees three braces, no match forms
          have hshape : ['\x7b'] ++ (bracedChars w ++ r) =
              '\x7b' :: '\x7b' :: ('\x7b' :: (w ++ '\x7d' :: '\x7d' :: r)) := by
            simp [bracedChars]
          have hv : scanView (['\x7b'] ++ (bracedChars w ++ r)) =
              .braceNoMatch (bracedChars w ++ r) := by
            rw [hshape]
            have := scanView_bb_noMatch ('\x7b' :: (w ++ '\x7d' :: '\x7d' :: r))
              (by
                rw [takeWhile_cons_neg _ _ _ isWordChar_lbrace]
                simp)
            rw [this]
            simp [bracedChars]
          rw [substRun_braceNoMatch lookup _ _ hv]
          rw [substRun_matched lookup _ w r (scanView_braced w r hw hword)]
          rfl
        | c2 :: lit2 =>
          by_cases hc2 : c2 = '\x7b'
          case neg =>
            have hv := scanView_brace_of_ne c2 (lit2 ++ (bracedChars w ++ r)) hc2
            have hshape : ('\x7b' :: c2 :: lit2) ++ (bracedChars w ++ r) =
                '\x7b' :: c2 :: (lit2 ++ (bracedChars w ++ r)) := by simp
            rw [hshape, substRun_noBrace lookup _ '\x7b' _ hv]
            have hvl := scanView_brace_of_ne c2 lit2 hc2
            rw [anyRun_noBrace _ '\x7b' (c2 :: lit2) hvl] at hany
            have hres := ih (c2 :: lit2) w r
              (by simp only [List.length_cons] at hlen ⊢; omega) hany hw hword
            rw [List.cons_append] at hres
            rw [hres]
            simp
          case pos =>
            subst hc2
            -- lit = '\x7b' :: '\x7b' :: lit2
            have hshape : ('\x7b' :: '\x7b' :: lit2) ++ (bracedChars w ++ r) =
                '\x7b' :: '\x7b' :: (lit2 ++ (bracedChars w ++ r)) := by simp
            cases hd : lit2.dropWhile isWordChar with
            | nil =>
              -- lit2 is all word characters; the appended reference begins
              -- with a brace, so no match forms here
              have hall : ∀ x ∈ lit2, isWordChar x = true :=
                all_of_dropWhile_nil _ _ hd
              have htw : (lit2 ++ (bracedChars w ++ r)).takeWhile isWordChar = lit2 := by
                rw [takeWhile_append_all _ _ _ hall]
                simp [bracedChars, takeWhile_cons_neg _ _ _ isWordChar_lbrace]
              have hdw : (lit2 ++ (bracedChars w ++ r)).dropWhile isWordChar =
                  bracedChars w ++ r := by
                rw [dropWhile_append_all _ _ _ hall]
                simp [bracedChars, dropWhile_cons_neg _ _ _ isWordChar_lbrace]
              have hv : scanView (('\x7b' :: '\x7b' :: lit2) ++ (bracedChars w ++ r)) =
                  .braceNoMatch (('\x7b' :: lit2) ++ (bracedChars w ++ r)) := by
                rw [hshape]
                rw [scanView_bb_noMatch _ (by
                  rw [hdw]
                  intro hcontra
                  simp [bracedChars] at hcontra)]
                simp
              rw [substRun_braceNoMatch lookup _ _ hv]
              have hvl : scanView ('\x7b' :: '\x7b' :: lit2) =
                  .braceNoMatch ('\x7b' :: lit2) := by
                rw [scanView_bb_noMatch _ (by rw [hd]; simp)]
              rw [anyRun_braceNoMatch _ _ hvl] at hany
              have hres := ih ('\x7b' :: lit2) w r
                (by simp only [List.length_cons] at hlen ⊢; omega) hany hw hword
              rw [hres]
              simp
            | cons d1 drest =>
              have hd1 : isWordChar d1 = false := dropWhile_head_false _ lit2 d1 drest hd
              have hw0 : ∀ x ∈ lit2.takeWhile isWordChar, isWordChar x = true :=
                fun x hx => List.mem_takeWhile_imp hx
              have hsplit : lit2 = lit2.takeWhile isWordChar ++ (d1 :: drest) := by
                conv_lhs => rw [← List.takeWhile_append_dropWhile (p := isWordChar) (l := lit2)]
                rw [hd]
              have htw : (lit2 ++ (bracedChars w ++ r)).takeWhile isWordChar =
                  lit2.takeWhile isWordChar := by
                conv_lhs => rw [hsplit]
                rw [List.append_assoc, takeWhile_append_all _ _ _ hw0,
                  List.cons_append, takeWhile_cons_neg _ _ _ hd1, List.append_nil]
              have hdw : (lit2 ++ (bracedChars w ++ r)).dropWhile isWordChar =
                  d1 :: (drest ++ (bracedChars w ++ r)) := by
                conv_lhs => rw [hsplit]
                rw [List.append_assoc, dropWhile_append_all _ _ _ hw0,
                  List.cons_append, dropWhile_cons_neg _ _ _ hd1]
              -- whether the literal itself contains a match right here
              by_cases hm : lit2.takeWhile isWordChar ≠ [] ∧
                  (d1 :: drest).take 2 = ['\x7d', '\x7d']
              · -- the literal contains a full match: contradicts hany
                exfalso
                have hvl : scanView ('\x7b' :: '\x7b' :: lit2) =
                    .matched (lit2.takeWhile isWordChar) ((lit2.dropWhile isWordChar).drop 2) :=
                  scanView_bb_match lit2 hm.1 (by rw [hd]; exact hm.2)
                rw [anyRun_matched _ _ _ hvl] at hany
                exact Bool.noConfusion hany
              · -- no match in the literal here; show the stream has none either
                have hstream : ¬((lit2 ++ (bracedChars w ++ r)).takeWhile isWordChar ≠ [] ∧
                    ((lit2 ++ (bracedChars w ++ r)).dropWhile isWordChar).take 2 =
                      ['\x7d', '\x7d']) := by
                  rw [htw, hdw]
                  intro hcontra
                  apply hm
                  refine ⟨hcontra.1, ?_⟩
                  match drest with
                  | [] =>
                    exfalso
                    have := hcontra.2
                    simp [bracedChars] at this
                  | e :: drest2 =>
                    have h1 := hcontra.2
                    simp only [List.take] at h1 ⊢
                    simpa using h1
                have hv : scanView (('\x7b' :: '\x7b' :: lit2) ++ (bracedChars w ++ r)) =
                    .braceNoMatch (('\x7b' :: lit2) ++ (bracedChars w ++ r)) := by
                  rw [hshape, scanView_bb_noMatch _ hstream]
                  simp
                rw [substRun_braceNoMatch lookup _ _ hv]
                have hvl : scanView ('\x7b' :: '\x7b' :: lit2) =
                    .braceNoMatch ('\x7b' :: lit2) := by
                  rw [scanView_bb_noMatch _ (by rw [hd]; exact hm)]
                rw [anyRun_braceNoMatch _ _ hvl] at hany
                have hres := ih ('\x7b' :: lit2) w r
                  (by simp only [List.length_cons] at hlen ⊢; omega) hany hw hword
                rw [hres]
                simp

/-- The canonical-decomposition characterization of the string scanner:
every literal run is copied verbatim and every reference is replaced
(known identifier: looked-up text; unknown: verbatim). -/
theorem substRun_renderSegs (lookup : String → Option String)
    (segs : List Seg) (tail : List Char)
    (hseg : ∀ sg ∈ segs, sg.name ≠ [] ∧ (∀ c ∈ sg.name, isWordChar c = true) ∧
      anyRun sg.lit = false)
    (htail : anyRun tail = false) :
    substRun lookup (renderSegs segs tail) = renderResolved lookup segs tail := by
  induction segs with
  | nil =>
    simp only [renderSegs, renderResolved]
    exact substRun_id_of_not_known lookup tail.length tail le_rfl
      (knownRun_false_of_anyRun_false lookup tail.length tail le_rfl htail)
  | cons sg rest ih =>
    obtain ⟨hn, hword, hlit⟩ := hseg sg (by simp)
    have hrest : ∀ x ∈ rest, x.name ≠ [] ∧ (∀ c ∈ x.name, isWordChar c = true) ∧
        anyRun x.lit = false := fun x hx => hseg x (by simp [hx])
    simp only [renderSegs, renderResolved]
    rw [List.append_assoc]
    rw [substRun_walk lookup sg.lit.length sg.lit sg.name (renderSegs rest tail)
      le_rfl hlit hn hword]
    rw [ih hrest]
    rw [List.append_assoc]
    rfl

theorem resolveKVs_eq_map (items : List (String × PyVal)) (vars : List (String × PyVal)) :
    resolveKVs items vars = items.map (fun kv => (kv.1, resolve_variables kv.2 vars)) := by
  induction items with
  | nil => rfl
  | cons kv rest ih =>
    cases kv
    simp [resolveKVs, ih]

theorem resolveItems_eq_map (items : List PyVal) (vars : List (String × PyVal)) :
    resolveItems items vars = items.map (fun v => resolve_variables v vars) := by
  induction items with
  | nil => rfl
  | cons v rest ih => simp [resolveItems, ih]

theorem string_mk_toList (s : String) : String.mk s.toList = s := rfl

theorem toList_string_mk (cs : List Char) : (String.mk cs).toList = cs := rfl

mutual

theorem resolve_id_of_noKnown (v : PyVal) (vars : List (String × PyVal))
    (h : noKnownOcc vars v = true) : resolve_variables v vars = v := by
  match v with
  | .str s =>
    simp only [noKnownOcc, Bool.not_eq_true'] at h
    simp only [resolve_variables, resolveString]
    rw [substRun_id_of_not_known (varLookup vars) s.toList.length s.toList le_rfl h,
      string_mk_toList]
  | .int n => rfl
  | .bool b => rfl
  | .none => rfl
  | .dict items =>
    simp only [noKnownOcc] at h
    simp only [resolve_variables]
    rw [resolveKVs_id_of_noKnown items vars h]
  | .list items =>
    simp only [noKnownOcc] at h
    simp only [resolve_variables]
    rw [resolveItems_id_of_noKnown items vars h]

theorem resolveKVs_id_of_noKnown (items : List (String × PyVal))
    (vars : List (String × PyVal)) (h : noKnownOccKVs vars items = true) :
    resolveKVs items vars = items := by
  match items with
  | [] => rfl
  | (k, v) :: rest =>
    simp only [noKnownOccKVs, Bool.and_eq_true] at h
    simp only [resolveKVs]
    rw [resolve_id_of_noKnown v vars h.1, resolveKVs_id_of_noKnown rest vars h.2]

theorem resolveItems_id_of_noKnown (items : List PyVal)
    (vars : List (String × PyVal)) (h : noKnownOccItems vars items = true) :
    resolveItems items vars = items := by
  match items with
  | [] => rfl
  | v :: rest =>
    simp only [noKnownOccItems, Bool.and_eq_true] at h
    simp only [resolveItems]
    rw [resolve_id_of_noKnown v vars h.1, resolveItems_id_of_noKnown rest vars h.2]

end

/-- C4, counterexample: the interpolator is *not* idempotent.  With
`variables = \x7b"a": "\x7b\x7bb\x7d\x7d", "b": "X"\x7d`, resolving the
config string `"\x7b\x7ba\x7d\x7d"` once yields `"\x7b\x7bb\x7d\x7d"`, and
a second application of `resolve_variables` re-scans that output and
expands it to `"X"`. -/
theorem c4_counterexample :
    resolve_variables
        (resolve_variables (.str (braced "a"))
          [("a", .str (braced "b")), ("b", .str "X")])
        [("a", .str (braced "b")), ("b", .str "X")] ≠
      resolve_variables (.str (braced "a"))
        [("a", .str (braced "b")), ("b", .str "X")] := by
  have h1 : resolve_variables (.str (braced "a"))
      [("a", .str (braced "b")), ("b", .str "X")] = .str (braced "b") := by
    simp only [resolve_variables, PyVal.str.injEq]
    decide
  have h2 : resolve_variables (.str (braced "b"))
      [("a", .str (braced "b")), ("b", .str "X")] = .str "X" := by
    simp only [resolve_variables, PyVal.str.injEq]
    decide
  rw [h1, h2]
  intro h
  injection h with h'
  exact absurd h' (by decide)

/-- C4 (amended): applying the interpolator twice equals applying it once
whenever the once-applied result contains no `\x7b\x7bidentifier\x7d\x7d`
occurrence whose identifier is a key of the variable map; within a single
application substituted text is never re-expanded (the match positions
come from the input string), but a second application re-scans the output,
so idempotence fails in general (see `c4_counterexample`). -/
theorem c4_idempotent_of_noKnownOcc (config : PyVal) (vars : List (String × PyVal))
    (h : noKnownOcc vars (resolve_variables config vars) = true) :
    resolve_variables (resolve_variables config vars) vars =
      resolve_variables config vars :=
  resolve_id_of_noKnown (resolve_variables config vars) vars h

/-- Witness for `c4_idempotent_of_noKnownOcc` at a concrete input. -/
theorem c4_witness :
    noKnownOcc [("a", PyVal.str "1")]
        (resolve_variables (.str (String.mk ('q' :: '=' :: bracedChars ['a'])))
          [("a", PyVal.str "1")]) = true ∧
      resolve_variables
          (resolve_variables (.str (String.mk ('q' :: '=' :: bracedChars ['a'])))
            [("a", PyVal.str "1")])
          [("a", PyVal.str "1")] =
        resolve_variables (.str (String.mk ('q' :: '=' :: bracedChars ['a'])))
          [("a", PyVal.str "1")] := by
  have hres : resolve_variables (.str (String.mk ('q' :: '=' :: bracedChars ['a'])))
      [("a", PyVal.str "1")] = .str "q=1" := by
    simp only [resolve_variables, PyVal.str.injEq]
    decide
  have hocc : noKnownOcc [("a", PyVal.str "1")]
      (resolve_variables (.str (String.mk ('q' :: '=' :: bracedChars ['a'])))
        [("a", PyVal.str "1")]) = true := by
    rw [hres]
    simp only [noKnownOcc]
    decide
  exact ⟨hocc,
    c4_idempotent_of_noKnownOcc (.str (String.mk ('q' :: '=' :: bracedChars ['a'])))
      [("a", PyVal.str "1")] hocc⟩

/-- C5: on any nested structure, the interpolator replaces each
`\x7b\x7bidentifier\x7d\x7d` occurrence in string leaves (presented via
their canonical literal/reference decomposition) by the stringified value
of `variables[identifier]`, leaves occurrences with unknown identifiers
verbatim, never raises, and passes non-string leaves through: scalars
unchanged, dicts and lists resolved pointwise (dict keys untouched). -/
theorem c5_interpolator (vars : List (String × PyVal)) :
    (∀ segs tail,
      (∀ sg ∈ segs, sg.name ≠ [] ∧ (∀ c ∈ sg.name, isWordChar c = true) ∧
        anyRun sg.lit = false) →
      anyRun tail = false →
      resolve_variables (.str (String.mk (renderSegs segs tail))) vars =
        .str (String.mk (renderResolved (varLookup vars) segs tail))) ∧
    (∀ n : Int, resolve_variables (.int n) vars = .int n) ∧
    (∀ b : Bool, resolve_variables (.bool b) vars = .bool b) ∧
    resolve_variables .none vars = .none ∧
    (∀ items, resolve_variables (.dict items) vars =
      .dict (items.map (fun kv => (kv.1, resolve_variables kv.2 vars)))) ∧
    (∀ items, resolve_variables (.list items) vars =
      .list (items.map (fun v => resolve_variables v vars))) := by
  refine ⟨?_, fun _ => rfl, fun _ => rfl, rfl, ?_, ?_⟩
  · intro segs tail hseg htail
    simp only [resolve_variables, resolveString, toList_string_mk]
    rw [substRun_renderSegs (varLookup vars) segs tail hseg htail]
  · intro items
    simp only [resolve_variables]
    rw [resolveKVs_eq_map]
  · intro items
    simp only [resolve_variables]
    rw [resolveItems_eq_map]

/-- Witness for `c5_interpolator` at a concrete input: `"go \x7b\x7bname\x7d\x7d!"`
with `name = 42` resolves to `"go 42!"`, i.e. the rendered resolved
decomposition. -/
theorem c5_witness :
    resolve_variables
        (.str (String.mk (renderSegs [⟨['g', 'o', ' '], ['n', 'a', 'm', 'e']⟩] ['!'])))
        [("name", PyVal.int 42)] =
      .str (String.mk (renderResolved (varLookup [("name", PyVal.int 42)])
        [⟨['g', 'o', ' '], ['n', 'a', 'm', 'e']⟩] ['!'])) :=
  (c5_interpolator [("name", PyVal.int 42)]).1
    [⟨['g', 'o', ' '], ['n', 'a', 'm', 'e']⟩] ['!'] (by decide) (by decide)

/-!
Lemmas about the Kahn walk of `topological_sort`.
-/

theorem kahnLoop_nil (ids : List String) (edges : List Edge) (deg : String → Int) :
    kahnLoop ids edges [] deg = [] := by
  rw [kahnLoop]

theorem kahnLoop_cons (ids : List String) (edges : List Edge) (n : String)
    (rest : List String) (deg : String → Int) :
    kahnLoop ids edges (n :: rest) deg =
      n :: kahnLoop ids edges (stepNeighbors (adjTargets ids edges n) deg rest).2
        (stepNeighbors (adjTargets ids edges n) deg rest).1 := by
  rw [kahnLoop]

theorem filterMap_count_eq (n v : String) (l : List Edge) :
    (l.filterMap (fun e => if e.source = n then some e.target else Option.none)).count v =
      (l.filter (fun e => decide (e.source = n) && decide (e.target = v))).length := by
  induction l with
  | nil => rfl
  | cons e rest ih =>
    by_cases hs : e.source = n
    · by_cases ht : e.target = v
      · simp [List.filterMap_cons, hs, ht, List.count_cons, ih]
      · simp [List.filterMap_cons, hs, ht, List.count_cons, ih]
    · simp [List.filterMap_cons, hs, ih]

/-- The multiplicity of `v` among the popped node's neighbors is the
number of surviving edges from `n` to `v`. -/
theorem adjTargets_count (ids : List String) (edges : List Edge) (n v : String) :
    (adjTargets ids edges n).count v =
      ((filteredEdges ids edges).filter
        (fun e => decide (e.source = n) && decide (e.target = v))).length := by
  unfold adjTargets
  exact filterMap_count_eq n v (filteredEdges ids edges)

theorem length_filter_or (p q : Edge → Bool)
    (hdisj : ∀ e, ¬(p e = true ∧ q e = true)) :
    ∀ l : List Edge,
      (l.filter (fun e => p e || q e)).length = (l.filter p).length + (l.filter q).length := by
  intro l
  induction l with
  | nil => rfl
  | cons e rest ih =>
    by_cases hp : p e = true
    · have hq : ¬ q e = true := fun hq => hdisj e ⟨hp, hq⟩
      simp [List.filter_cons, hp, hq, ih]
      omega
    · by_cases hq : q e = true
      · simp [List.filter_cons, hp, hq, ih]
        omega
      · simp [List.filter_cons, hp, hq, ih]

theorem cntFrom_append_single (ids : List String) (edges : List Edge)
    (P : List String) (n v : String) (hn : n ∉ P) :
    cntFrom ids edges (P ++ [n]) v =
      cntFrom ids edges P v + (adjTargets ids edges n).count v := by
  rw [adjTargets_count]
  unfold cntFrom
  have hcong : (filteredEdges ids edges).filter
      (fun e => decide (e.target = v) && decide (e.source ∈ P ++ [n])) =
      (filteredEdges ids edges).filter
        (fun e => (decide (e.target = v) && decide (e.source ∈ P)) ||
          (decide (e.source = n) && decide (e.target = v))) := by
    apply List.filter_congr
    intro e _
    by_cases ht : e.target = v <;> by_cases hsP : e.source ∈ P <;>
      by_cases hsn : e.source = n <;>
      simp [ht, hsP, hsn, List.mem_append]
  rw [hcong]
  exact length_filter_or _ _
    (fun e h => by
      have h1 := h.1
      have h2 := h.2
      simp only [Bool.and_eq_true, decide_eq_true_eq] at h1 h2
      exact hn (h2.1 ▸ h1.2))
    (filteredEdges ids edges)

theorem cntFrom_nil (ids : List String) (edges : List Edge) (v : String) :
    cntFrom ids edges [] v = 0 := by
  unfold cntFrom
  rw [List.length_eq_zero]
  apply List.filter_eq_nil_iff.mpr
  intro e _
  simp

theorem cntFrom_as_double_filter (ids : List String) (edges : List Edge)
    (P : List String) (v : String) :
    cntFrom ids edges P v =
      (((filteredEdges ids edges).filter (fun e => decide (e.target = v))).filter
        (fun e => decide (e.source ∈ P))).length := by
  unfold cntFrom
  rw [List.filter_filter]
  congr 1
  apply List.filter_congr
  intro e _
  rw [Bool.and_comm]

theorem cntFrom_le_init (ids : List String) (edges : List Edge)
    (P : List String) (v : String) :
    (cntFrom ids edges P v : Int) ≤ initInDeg ids edges v := by
  rw [cntFrom_as_double_filter]
  unfold initInDeg
  exact_mod_cast List.length_filter_le _ _

/-- When the popped-source count saturates the in-degree, every surviving
edge into `v` has its source among the popped nodes. -/
theorem sources_popped_of_cnt_eq (ids : List String) (edges : List Edge)
    (P : List String) (v : String)
    (h : (cntFrom ids edges P v : Int) = initInDeg ids edges v) :
    ∀ e ∈ filteredEdges ids edges, e.target = v → e.source ∈ P := by
  rw [cntFrom_as_double_filter] at h
  unfold initInDeg at h
  have hlen : (((filteredEdges ids edges).filter (fun e => decide (e.target = v))).filter
      (fun e => decide (e.source ∈ P))).length =
      ((filteredEdges ids edges).filter (fun e => decide (e.target = v))).length := by
    exact_mod_cast h
  have heq := (List.filter_sublist
    (l := (filteredEdges ids edges).filter (fun e => decide (e.target = v)))
    (p := fun e => decide (e.source ∈ P))).eq_of_length hlen
  intro e he htv
  have hmem : e ∈ (filteredEdges ids edges).filter (fun e => decide (e.target = v)) := by
    rw [List.mem_filter]
    exact ⟨he, by simp [htv]⟩
  rw [← heq, List.mem_filter] at hmem
  simpa using hmem.2

theorem no_edge_into_of_init_zero (ids : List String) (edges : List Edge) (v : String)
    (h : initInDeg ids edges v = 0) :
    ∀ e ∈ filteredEdges ids edges, e.target ≠ v := by
  unfold initInDeg at h
  have h' : ((filteredEdges ids edges).filter (fun e => decide (e.target = v))).length = 0 := by
    exact_mod_cast h
  intro e he htv
  have hmem : e ∈ (filteredEdges ids edges).filter (fun e => decide (e.target = v)) := by
    rw [List.mem_filter]
    exact ⟨he, by simp [htv]⟩
  rw [List.length_eq_zero] at h'
  rw [h'] at hmem
  simp at hmem

theorem newlyEnq_mem (v : String) :
    ∀ (nbs : List String) (deg : String → Int),
      v ∈ newlyEnq nbs deg ↔ 1 ≤ deg v ∧ deg v ≤ (nbs.count v : Int) := by
  intro nbs
  induction nbs with
  | nil =>
    intro deg
    simp [newlyEnq]
    omega
  | cons nb rest ih =>
    intro deg
    simp only [newlyEnq, List.mem_append]
    rw [ih]
    by_cases hv : v = nb
    · subst hv
      rw [List.count_cons_self]
      have hupd : (if v = v then deg v - 1 else deg v) = deg v - 1 := by simp
      rw [hupd]
      have hcast : ((rest.count v + 1 : Nat) : Int) = (rest.count v : Int) + 1 := by
        push_cast
        ring
      rw [hcast]
      by_cases h0 : deg v - 1 = 0
      · rw [if_pos h0]
        simp only [List.mem_singleton]
        constructor
        · rintro (h | ⟨h1, h2⟩)
          · have : (0 : Int) ≤ rest.count v := by positivity
            omega
          · omega
        · intro _
          exact Or.inl trivial
      · rw [if_neg h0]
        simp only [List.not_mem_nil, false_or]
        omega
    · rw [List.count_cons_of_ne hv]
      have hupd : (if v = nb then deg v - 1 else deg v) = deg v := by simp [hv]
      rw [hupd]
      by_cases h0 : deg nb - 1 = 0
      · rw [if_pos h0]
        simp [hv]
      · rw [if_neg h0]
        simp

theorem newlyEnq_nodup :
    ∀ (nbs : List String) (deg : String → Int), (newlyEnq nbs deg).Nodup := by
  intro nbs
  induction nbs with
  | nil => intro deg; simp [newlyEnq]
  | cons nb rest ih =>
    intro deg
    simp only [newlyEnq]
    by_cases h1 : deg nb - 1 = 0
    · rw [if_pos h1]
      simp only [List.singleton_append, List.nodup_cons]
      refine ⟨?_, ih _⟩
      rw [newlyEnq_mem]
      have hupd : (if nb = nb then deg nb - 1 else deg nb) = deg nb - 1 := by simp
      rw [hupd]
      omega
    · rw [if_neg h1]
      simp only [List.nil_append]
      exact ih _

theorem Before_append_right (u v : String) (P X : List String)
    (h : Before u v P) : Before u v (P ++ X) := by
  obtain ⟨l₁, l₂, hP, hu⟩ := h
  exact ⟨l₁, l₂ ++ X, by rw [hP]; simp, hu⟩

/-- One pop preserves the invariant. -/
theorem kahn_preserve (ids : List String) (edges : List Edge)
    (P rest : List String) (n : String) (deg : String → Int)
    (hInv : KahnInv ids edges P (n :: rest) deg) :
    KahnInv ids edges (P ++ [n])
      (stepNeighbors (adjTargets ids edges n) deg rest).2
      (stepNeighbors (adjTargets ids edges n) deg rest).1 := by
  obtain ⟨deg_eq, nodup, queue_mem, queue_deg, complete, popped_deg, popped_mem,
    pop_before, queue_src⟩ := hInv
  have hnIds : n ∈ ids := queue_mem n (by simp)
  have hdegn : deg n = 0 := queue_deg n (by simp)
  rw [List.nodup_append] at nodup
  obtain ⟨hndP, hndNR, hdisj⟩ := nodup
  have hnP : n ∉ P := fun h => hdisj h (by simp)
  rw [List.nodup_cons] at hndNR
  obtain ⟨hnRest, hndRest⟩ := hndNR
  have hnonneg : ∀ v, 0 ≤ deg v := by
    intro v
    rw [deg_eq v]
    have := cntFrom_le_init ids edges P v
    omega
  -- if deg v = 0 then n has no surviving edge into v
  have hcount0 : ∀ v, deg v = 0 → (adjTargets ids edges n).count v = 0 := by
    intro v hv
    by_contra hne
    have hpos : 0 < (adjTargets ids edges n).count v := Nat.pos_of_ne_zero hne
    rw [adjTargets_count] at hpos
    obtain ⟨e, he⟩ := List.exists_mem_of_length_pos hpos
    rw [List.mem_filter] at he
    obtain ⟨heE, hcond⟩ := he
    simp only [Bool.and_eq_true, decide_eq_true_eq] at hcond
    have hcnt : (cntFrom ids edges P v : Int) = initInDeg ids edges v := by
      have := deg_eq v
      omega
    have := sources_popped_of_cnt_eq ids edges P v hcnt e heE hcond.2
    rw [hcond.1] at this
    exact hnP this
  rw [stepNeighbors_deg, stepNeighbors_queue]
  have hdeg'_eq : ∀ v,
      deg v - ((adjTargets ids edges n).count v : Int) =
        initInDeg ids edges v - (cntFrom ids edges (P ++ [n]) v : Int) := by
    intro v
    rw [cntFrom_append_single ids edges P n v hnP, deg_eq v]
    push_cast
    ring
  have hnonneg' : ∀ v, 0 ≤ deg v - ((adjTargets ids edges n).count v : Int) := by
    intro v
    rw [hdeg'_eq v]
    have := cntFrom_le_init ids edges (P ++ [n]) v
    omega
  have hnewly : ∀ v, v ∈ newlyEnq (adjTargets ids edges n) deg ↔
      1 ≤ deg v ∧ deg v ≤ ((adjTargets ids edges n).count v : Int) :=
    fun v => newlyEnq_mem v _ deg
  have hnewly_deg0 : ∀ v ∈ newlyEnq (adjTargets ids edges n) deg,
      deg v - ((adjTargets ids edges n).count v : Int) = 0 := by
    intro v hv
    rw [hnewly v] at hv
    have := hnonneg' v
    omega
  have hnewly_nbs : ∀ v ∈ newlyEnq (adjTargets ids edges n) deg,
      v ∈ adjTargets ids edges n := by
    intro v hv
    rw [hnewly v] at hv
    have h1 : (1 : Int) ≤ ((adjTargets ids edges n).count v : Int) := by omega
    have h2 : 1 ≤ (adjTargets ids edges n).count v := by exact_mod_cast h1
    exact List.count_pos_iff.mp (by omega)
  have hrest_count0 : ∀ v ∈ rest, (adjTargets ids edges n).count v = 0 :=
    fun v hv => hcount0 v (queue_deg v (by simp [hv]))
  have hrest_deg' : ∀ v ∈ rest, deg v - ((adjTargets ids edges n).count v : Int) = 0 := by
    intro v hv
    rw [hrest_count0 v hv]
    have := queue_deg v (by simp [hv])
    omega
  refine ⟨?_, ?_, ?_, ?_, ?_, ?_, ?_, ?_, ?_⟩
  · exact hdeg'_eq
  · -- nodup of (P ++ [n]) ++ (rest ++ newly)
    rw [List.nodup_append]
    refine ⟨?_, ?_, ?_⟩
    · rw [List.nodup_append]
      refine ⟨hndP, List.nodup_singleton n, fun a ha hb => ?_⟩
      have han : a = n := by simpa using hb
      exact hnP (han ▸ ha)
    · rw [List.nodup_append]
      refine ⟨hndRest, newlyEnq_nodup _ deg, ?_⟩
      intro a ha hb
      rw [hnewly a] at hb
      have := queue_deg a (by simp [ha])
      omega
    · intro a ha hb
      rw [List.mem_append] at ha hb
      rcases hb with hbRest | hbNew
      · rcases ha with haP | haN
        · exact hdisj haP (by simp [hbRest])
        · simp only [List.mem_singleton] at haN
          exact hnRest (haN ▸ hbRest)
      · rw [hnewly a] at hbNew
        rcases ha with haP | haN
        · have := popped_deg a haP
          omega
        · simp only [List.mem_singleton] at haN
          subst haN
          omega
  · intro v hv
    rw [List.mem_append] at hv
    rcases hv with hvRest | hvNew
    · exact queue_mem v (by simp [hvRest])
    · exact adjTargets_subset ids edges n v (hnewly_nbs v hvNew)
  · intro v hv
    rw [List.mem_append] at hv
    rcases hv with hvRest | hvNew
    · exact hrest_deg' v hvRest
    · exact hnewly_deg0 v hvNew
  · intro v hvIds hvP hvQ
    rw [List.mem_append] at hvP hvQ
    push_neg at hvP hvQ
    intro hzero
    by_cases hdv : deg v = 0
    · have := complete v hvIds (hvP.1) ?_
      · exact this hdv
      · intro hvNR
        rcases List.mem_cons.mp hvNR with rfl | hvRest
        · exact hvP.2 (by simp)
        · exact hvQ.1 hvRest
    · have h1 : 1 ≤ deg v := by
        have := hnonneg v
        omega
      have h2 : deg v ≤ ((adjTargets ids edges n).count v : Int) := by omega
      exact hvQ.2 ((hnewly v).mpr ⟨h1, h2⟩)
  · intro v hv
    rw [List.mem_append] at hv
    rcases hv with hvP | hvN
    · have hd := popped_deg v hvP
      rw [hcount0 v hd]
      omega
    · simp only [List.mem_singleton] at hvN
      subst hvN
      rw [hcount0 v hdegn]
      omega
  · intro v hv
    rw [List.mem_append] at hv
    rcases hv with hvP | hvN
    · exact popped_mem v hvP
    · simp only [List.mem_singleton] at hvN
      exact hvN ▸ hnIds
  · intro e he htv
    rw [List.mem_append] at htv
    rcases htv with htP | htN
    · exact Before_append_right _ _ _ _ (pop_before e he htP)
    · simp only [List.mem_singleton] at htN
      have hsrc : e.source ∈ P := queue_src e he (by simp [htN])
      exact ⟨P, [], by rw [htN], hsrc⟩
  · intro e he htv
    rw [List.mem_append] at htv
    rcases htv with htRest | htNew
    · exact List.mem_append.mpr (Or.inl (queue_src e he (by simp [htRest])))
    · have hdeg0 := hnewly_deg0 e.target htNew
      rw [hdeg'_eq e.target] at hdeg0
      have hcnt : (cntFrom ids edges (P ++ [n]) e.target : Int) =
          initInDeg ids edges e.target := by omega
      exact sources_popped_of_cnt_eq ids edges (P ++ [n]) e.target hcnt e he rfl

/-- The invariant with an empty queue yields the output guarantees. -/
theorem kahn_base (ids : List String) (edges : List Edge)
    (P : List String) (deg : String → Int)
    (hInv : KahnInv ids edges P [] deg) : KahnOut ids edges P := by
  obtain ⟨deg_eq, nodup, _, _, complete, _, popped_mem, pop_before, _⟩ := hInv
  rw [List.append_nil] at nodup
  refine ⟨nodup, popped_mem, ?_, pop_before⟩
  intro v hvIds hsrc
  have hcnt : cntFrom ids edges P v =
      ((filteredEdges ids edges).filter (fun e => decide (e.target = v))).length := by
    rw [cntFrom_as_double_filter]
    congr 1
    apply List.filter_eq_self.mpr
    intro e he
    rw [List.mem_filter] at he
    simp only [decide_eq_true_eq] at he ⊢
    exact hsrc e he.1 he.2
  have hdeg0 : deg v = 0 := by
    rw [deg_eq v, hcnt]
    unfold initInDeg
    ring
  by_contra hvP
  exact complete v hvIds hvP (by simp) hdeg0

/-- The initial state of `topological_sort` satisfies the invariant. -/
theorem kahn_init (ids : List String) (edges : List Edge) (hnd : ids.Nodup) :
    KahnInv ids edges []
      (ids.filter (fun v => decide (initInDeg ids edges v = 0)))
      (initInDeg ids edges) := by
  refine ⟨?_, ?_, ?_, ?_, ?_, ?_, ?_, ?_, ?_⟩
  · intro v
    rw [cntFrom_nil]
    simp
  · rw [List.nil_append]
    exact hnd.filter _
  · intro v hv
    exact (List.mem_filter.mp hv).1
  · intro v hv
    have := (List.mem_filter.mp hv).2
    simpa using this
  · intro v hvIds _ hvQ hzero
    exact hvQ (List.mem_filter.mpr ⟨hvIds, by simpa using hzero⟩)
  · intro v hv
    simp at hv
  · intro v hv
    simp at hv
  · intro e _ ht
    simp at ht
  · intro e he ht
    have hd := (List.mem_filter.mp ht).2
    simp only [decide_eq_true_eq] at hd
    exact absurd rfl (no_edge_into_of_init_zero ids edges e.target hd e he)

/-- Master correctness of the Kahn walk: from any invariant state, the
popped prefix plus the rest of the walk is duplicate-free, stays inside
`ids`, contains every node all of whose predecessors it contains, and
lists every surviving edge's source before its target. -/
theorem kahn_master (ids : List String) (edges : List Edge) :
    ∀ (N : Nat) (queue : List String) (deg : String → Int) (P : List String),
      queue.length + degSum ids deg ≤ N →
      KahnInv ids edges P queue deg →
      KahnOut ids edges (P ++ kahnLoop ids edges queue deg) := by
  intro N
  induction N with
  | zero =>
    intro queue deg P hN hInv
    have hq : queue = [] := by
      have : queue.length = 0 := by omega
      exact List.eq_nil_of_length_eq_zero this
    subst hq
    rw [kahnLoop_nil, List.append_nil]
    exact kahn_base ids edges P deg hInv
  | succ N ih =>
    intro queue deg P hN hInv
    match queue with
    | [] =>
      rw [kahnLoop_nil, List.append_nil]
      exact kahn_base ids edges P deg hInv
    | n :: rest =>
      rw [kahnLoop_cons]
      have hpres := kahn_preserve ids edges P rest n deg hInv
      have hmeas := stepNeighbors_measure ids (adjTargets ids edges n) deg rest
        (adjTargets_subset ids edges n)
      have hout := ih (stepNeighbors (adjTargets ids edges n) deg rest).2
        (stepNeighbors (adjTargets ids edges n) deg rest).1 (P ++ [n])
        (by simp only [List.length_cons] at hN; omega) hpres
      have hassoc : P ++ n :: kahnLoop ids edges
            (stepNeighbors (adjTargets ids edges n) deg rest).2
            (stepNeighbors (adjTargets ids edges n) deg rest).1 =
          (P ++ [n]) ++ kahnLoop ids edges
            (stepNeighbors (adjTargets ids edges n) deg rest).2
            (stepNeighbors (adjTargets ids edges n) deg rest).1 := by
        simp
      rw [hassoc]
      exact hout

/-- The output guarantees, at the top-level call. -/
theorem topological_sort_out (setOrder : List String) (edges : List Edge)
    (hnd : setOrder.Nodup) :
    KahnOut setOrder edges (topological_sort setOrder edges) := by
  have h := kahn_master setOrder edges
    ((setOrder.filter (fun v => decide (initInDeg setOrder edges v = 0))).length +
      degSum setOrder (initInDeg setOrder edges))
    (setOrder.filter (fun v => decide (initInDeg setOrder edges v = 0)))
    (initInDeg setOrder edges) [] le_rfl (kahn_init setOrder edges hnd)
  rw [List.nil_append] at h
  exact h

theorem mem_filteredEdges (ids : List String) (edges : List Edge) (e : Edge)
    (he : e ∈ filteredEdges ids edges) :
    e ∈ edges ∧ e.source ∈ ids ∧ e.target ∈ ids := by
  rw [filteredEdges, List.mem_filter] at he
  simp only [Bool.and_eq_true, decide_eq_true_eq] at he
  exact ⟨he.1, he.2.1, he.2.2⟩

theorem edge_mem_filteredEdges (ids : List String) (edges : List Edge) (e : Edge)
    (he : e ∈ edges) (hs : e.source ∈ ids) (ht : e.target ∈ ids) :
    e ∈ filteredEdges ids edges := by
  rw [filteredEdges, List.mem_filter]
  simp only [Bool.and_eq_true, decide_eq_true_eq]
  exact ⟨he, hs, ht⟩

/-- On acyclic surviving graphs, the walk emits every node of `ids`. -/
theorem topological_sort_total (setOrder : List String) (edges : List Edge)
    (hnd : setOrder.Nodup) (hac : Acyclic setOrder edges) :
    ∀ v ∈ setOrder, v ∈ topological_sort setOrder edges := by
  have out := topological_sort_out setOrder edges hnd
  haveI hfin : Finite {x // x ∈ setOrder} := (setOrder.finite_toSet).to_subtype
  let r : {x // x ∈ setOrder} → {x // x ∈ setOrder} → Prop :=
    fun a b => Relation.TransGen (edgeRel setOrder edges) a.1 b.1
  haveI : IsTrans {x // x ∈ setOrder} r := ⟨fun _ _ _ hab hbc => hab.trans hbc⟩
  haveI : IsIrrefl {x // x ∈ setOrder} r := ⟨fun a ha => hac a.1 ha⟩
  have hwf : WellFounded r := Finite.wellFounded_of_trans_of_irrefl r
  intro v hv
  suffices h : ∀ a : {x // x ∈ setOrder}, a.1 ∈ topological_sort setOrder edges from
    h ⟨v, hv⟩
  intro a
  induction a using hwf.induction with
  | _ x ih =>
    apply out.complete x.1 x.2
    intro e he htv
    have hmem := mem_filteredEdges setOrder edges e he
    apply ih ⟨e.source, hmem.2.1⟩
    apply Relation.TransGen.single
    show Edge.mk e.source x.1 ∈ filteredEdges setOrder edges
    have : Edge.mk e.source x.1 = e := by
      cases e
      simp only at htv
      rw [htv]
    rw [this]
    exact he

theorem indexOf_append_left (u : String) (l₁ rest : List String) (h : u ∈ l₁) :
    (l₁ ++ rest).indexOf u = l₁.indexOf u := by
  induction l₁ with
  | nil => simp at h
  | cons a l ih =>
    by_cases ha : a = u
    · subst ha
      simp [List.indexOf_cons_self]
    · have hm : u ∈ l := by
        rcases List.mem_cons.mp h with rfl | hm
        · exact absurd rfl ha
        · exact hm
      rw [List.cons_append, List.indexOf_cons_ne _ ha, List.indexOf_cons_ne _ ha, ih hm]

theorem indexOf_append_self (v : String) (l₁ l₂ : List String) (h : v ∉ l₁) :
    (l₁ ++ v :: l₂).indexOf v = l₁.length := by
  induction l₁ with
  | nil => simp [List.indexOf_cons_self]
  | cons a l ih =>
    have ha : a ≠ v := fun hav => h (by simp [hav])
    rw [List.cons_append, List.indexOf_cons_ne _ ha, ih (fun hm => h (by simp [hm]))]
    simp

theorem before_indexOf (u v : String) (F : List String) (hnd : F.Nodup)
    (h : Before u v F) : F.indexOf u < F.indexOf v := by
  obtain ⟨l₁, l₂, hF, hu⟩ := h
  subst hF
  have hvl : v ∉ l₁ := by
    rw [List.nodup_append] at hnd
    exact fun hm => hnd.2.2 hm (by simp)
  rw [indexOf_append_left u _ _ hu, indexOf_append_self v _ _ hvl]
  exact List.indexOf_lt_length.mpr hu

theorem before_mem (u v : String) (F : List String) (h : Before u v F) : u ∈ F := by
  obtain ⟨l₁, _, hF, hu⟩ := h
  rw [hF]
  exact List.mem_append.mpr (Or.inl hu)

/-- Along a surviving-edge chain ending inside the output, every node is
in the output with strictly increasing positions. -/
theorem chain_indexOf_lt (setOrder : List String) (edges : List Edge)
    (out : KahnOut setOrder edges (topological_sort setOrder edges)) :
    ∀ (mid : List String) (a z : String),
      List.Chain (edgeRel setOrder edges) a (mid ++ [z]) →
      z ∈ topological_sort setOrder edges →
      a ∈ topological_sort setOrder edges ∧
        (topological_sort setOrder edges).indexOf a <
          (topological_sort setOrder edges).indexOf z := by
  intro mid
  induction mid with
  | nil =>
    intro a z hch hz
    rw [List.nil_append, List.chain_singleton] at hch
    have hb := out.edge_before _ hch hz
    exact ⟨before_mem _ _ _ hb, before_indexOf _ _ _ out.nodup hb⟩
  | cons b mid ih =>
    intro a z hch hz
    rw [List.cons_append, List.chain_cons] at hch
    obtain ⟨hb, hbz⟩ := ih b z hch.2 hz
    have hab := out.edge_before _ hch.1 hb
    exact ⟨before_mem _ _ _ hab,
      lt_trans (before_indexOf _ _ _ out.nodup hab) hbz⟩

/-- No node of a surviving-edge cycle appears in the output. -/
theorem cycle_not_in_sort (setOrder : List String) (edges : List Edge)
    (hnd : setOrder.Nodup) (v : String) (l : List String)
    (hch : List.Chain (edgeRel setOrder edges) v (l ++ [v])) :
    ∀ w ∈ v :: l, w ∉ topological_sort setOrder edges := by
  have out := topological_sort_out setOrder edges hnd
  have hclosed : ∀ (z : String) (mid : List String),
      List.Chain (edgeRel setOrder edges) z (mid ++ [z]) →
      z ∉ topological_sort setOrder edges := by
    intro z mid hchz hz
    have := chain_indexOf_lt setOrder edges out mid z z hchz hz
    omega
  intro w hw
  rcases List.mem_cons.mp hw with rfl | hwl
  · exact hclosed w l hch
  · obtain ⟨l₁, l₂, hl⟩ := List.append_of_mem hwl
    subst hl
    have hsplit1 : List.Chain (edgeRel setOrder edges) v (l₁ ++ [w]) ∧
        List.Chain (edgeRel setOrder edges) w (l₂ ++ [v]) := by
      rw [← List.chain_split]
      have : (l₁ ++ w :: l₂) ++ [v] = l₁ ++ w :: (l₂ ++ [v]) := by simp
      rw [this] at hch
      exact hch
    have hjoin : List.Chain (edgeRel setOrder edges) w (l₂ ++ v :: (l₁ ++ [w])) :=
      List.chain_split.mpr ⟨hsplit1.2, hsplit1.1⟩
    have : l₂ ++ v :: (l₁ ++ [w]) = (l₂ ++ v :: l₁) ++ [w] := by simp
    rw [this] at hjoin
    exact hclosed w (l₂ ++ v :: l₁) hjoin

theorem kahnLoop_no_edges (so : List String) :
    ∀ (q : List String) (deg : String → Int), kahnLoop so [] q deg = q := by
  intro q
  induction q with
  | nil => intro deg; exact kahnLoop_nil so [] deg
  | cons n rest ih =>
    intro deg
    rw [kahnLoop_cons]
    have hadj : adjTargets so [] n = [] := rfl
    rw [hadj]
    simp only [stepNeighbors]
    rw [ih]

/-- With no edges every in-degree is zero, the seed queue is the whole
set-iteration order, and the walk emits it unchanged: ties are broken by
the set's iteration order. -/
theorem topological_sort_no_edges (so : List String) :
    topological_sort so [] = so := by
  unfold topological_sort
  have hseeds : so.filter (fun v => decide (initInDeg so [] v = 0)) = so := by
    apply List.filter_eq_self.mpr
    intro a _
    simp [initInDeg, filteredEdges]
  rw [hseeds, kahnLoop_no_edges]

/-- C2, counterexample: the seed queue (and hence the produced order) is
read off the iteration order of the Python set of node ids, not the node
list's insertion order.  For the two-node workflow with nodes authored in
the order `n1, n2` and no edges, the set order `["n2", "n1"]` is a
legitimate iteration order of `\x7b"n1", "n2"\x7d` (same elements, no
duplicates), and under it the scheduler returns `["n2", "n1"]`, not the
authored `["n1", "n2"]`; the output thus depends on the hash-determined
set order, which the workflow does not determine. -/
theorem c2_counterexample :
    (["n2", "n1"].Nodup ∧ ∀ x : String, x ∈ ["n2", "n1"] ↔
      x ∈ ([⟨"n1", "noop", []⟩, ⟨"n2", "noop", []⟩] : List Node).map Node.id) ∧
    topological_sort ["n2", "n1"] [] = ["n2", "n1"] ∧
    topological_sort ["n2", "n1"] [] ≠ ["n1", "n2"] ∧
    topological_sort ["n1", "n2"] [] ≠ topological_sort ["n2", "n1"] [] := by
  refine ⟨⟨by decide, ?_⟩, ?_, ?_, ?_⟩
  · intro x
    simp only [List.map, List.mem_cons, List.not_mem_nil, or_false]
    constructor
    · rintro (rfl | rfl)
      · exact Or.inr rfl
      · exact Or.inl rfl
    · rintro (rfl | rfl)
      · exact Or.inr rfl
      · exact Or.inl rfl
  · exact topological_sort_no_edges _
  · rw [topological_sort_no_edges]
    decide
  · rw [topological_sort_no_edges, topological_sort_no_edges]
    decide

/-- C2 (amended): ties among simultaneously-ready nodes are broken by the
iteration order of the Python set `node_ids` (hash-dependent, not the
node list's insertion order): with no edges at all — every node ready at
once — the produced order is exactly the set-iteration order. -/
theorem c2_ties_by_set_order (setOrder : List String) :
    topological_sort setOrder [] = setOrder :=
  topological_sort_no_edges setOrder

/-- C1: for an acyclic workflow, the produced order contains every node
exactly once and nothing else, and every edge whose endpoints both exist
among the nodes has its source strictly before its target.  `setOrder` is
the iteration order of the Python node-id set, constrained to enumerate
the node ids. -/
theorem c1_schedule_totality (nodes : List Node) (edges : List Edge)
    (setOrder : List String) (hnd : setOrder.Nodup)
    (hids : ∀ x, x ∈ setOrder ↔ x ∈ nodes.map Node.id)
    (hac : Acyclic setOrder edges) :
    (∀ v ∈ nodes.map Node.id, (topological_sort setOrder edges).count v = 1) ∧
    (∀ v ∈ topological_sort setOrder edges, v ∈ nodes.map Node.id) ∧
    (∀ e ∈ edges, e.source ∈ nodes.map Node.id → e.target ∈ nodes.map Node.id →
      (topological_sort setOrder edges).indexOf e.source <
        (topological_sort setOrder edges).indexOf e.target) := by
  have out := topological_sort_out setOrder edges hnd
  refine ⟨?_, ?_, ?_⟩
  · intro v hv
    exact List.count_eq_one_of_mem out.nodup
      (topological_sort_total setOrder edges hnd hac v ((hids v).mpr hv))
  · intro v hv
    exact (hids v).mp (out.mem v hv)
  · intro e he hs ht
    have hef : e ∈ filteredEdges setOrder edges :=
      edge_mem_filteredEdges _ _ _ he ((hids _).mpr hs) ((hids _).mpr ht)
    have htF := topological_sort_total setOrder edges hnd hac e.target ((hids _).mpr ht)
    exact before_indexOf _ _ _ out.nodup (out.edge_before e hef htF)

theorem acyclic_of_rank (ids : List String) (edges : List Edge) (f : String → Nat)
    (h : ∀ u v, edgeRel ids edges u v → f u < f v) : Acyclic ids edges := by
  intro v hv
  have mono : ∀ a b, Relation.TransGen (edgeRel ids edges) a b → f a < f b := by
    intro a b htg
    induction htg with
    | single h1 => exact h _ _ h1
    | tail _ h1 ih => exact lt_trans ih (h _ _ h1)
  exact absurd (mono v v hv) (lt_irrefl _)

theorem acyclic_example_ab : Acyclic ["b", "a"] [⟨"a", "b"⟩] := by
  apply acyclic_of_rank _ _ (fun s => if s = "a" then 0 else 1)
  intro u v h
  rw [edgeRel, filteredEdges] at h
  simp only [List.mem_filter, List.mem_singleton] at h
  have h1 := h.1
  rw [Edge.mk.injEq] at h1
  rw [h1.1, h1.2]
  simp

/-- Witness for `c1_schedule_totality` on the two-node workflow
`a → b` with set order `["b", "a"]`. -/
theorem c1_witness :
    (∀ v ∈ ([⟨"a", "noop", []⟩, ⟨"b", "noop", []⟩] : List Node).map Node.id,
      (topological_sort ["b", "a"] [⟨"a", "b"⟩]).count v = 1) ∧
    (∀ v ∈ topological_sort ["b", "a"] [⟨"a", "b"⟩],
      v ∈ ([⟨"a", "noop", []⟩, ⟨"b", "noop", []⟩] : List Node).map Node.id) ∧
    (∀ e ∈ [(⟨"a", "b"⟩ : Edge)],
      e.source ∈ ([⟨"a", "noop", []⟩, ⟨"b", "noop", []⟩] : List Node).map Node.id →
      e.target ∈ ([⟨"a", "noop", []⟩, ⟨"b", "noop", []⟩] : List Node).map Node.id →
      (topological_sort ["b", "a"] [⟨"a", "b"⟩]).indexOf e.source <
        (topological_sort ["b", "a"] [⟨"a", "b"⟩]).indexOf e.target) :=
  c1_schedule_totality [⟨"a", "noop", []⟩, ⟨"b", "noop", []⟩] [⟨"a", "b"⟩]
    ["b", "a"] (by decide)
    (by
      intro x
      simp only [List.map, List.mem_cons, List.not_mem_nil, or_false]
      constructor
      · rintro (rfl | rfl)
        · exact Or.inr rfl
        · exact Or.inl rfl
      · rintro (rfl | rfl)
        · exact Or.inr rfl
        · exact Or.inl rfl)
    acyclic_example_ab

/-- When every action succeeds, the walk visits the whole order: the
exit is a normal loop exit, the status stays `running`, and exactly the
order's ids with a `nodes_map` entry are executed. -/
theorem runNodes_all_ok (o : ExecOracles) (nmap : String → Option Node)
    (hk : ∀ t, o.knownType t = true) (hg : ∀ nid, o.gateRaises nid = false)
    (ho : ∀ nid, o.outcome nid = .ok) :
    ∀ (order : List String) (st : RunState), st.status = .running →
      (runNodes o nmap order st).2 = .fin ∧
      (runNodes o nmap order st).1.status = .running ∧
      (runNodes o nmap order st).1.executed =
        st.executed ++ order.filter (fun nid => (nmap nid).isSome) := by
  intro order
  induction order with
  | nil =>
    intro st hst
    simp [runNodes, hst]
  | cons nid rest ih =>
    rintro ⟨sts, cur, ex⟩ hst
    obtain rfl : sts = ExecutionStatus.running := hst
    simp only [runNodes]
    rw [if_neg (by decide : ¬(ExecutionStatus.running = ExecutionStatus.cancelled))]
    cases hnm : nmap nid with
    | none =>
      simp only [List.filter_cons, hnm, Option.isSome_none, Bool.false_eq_true, if_false]
      exact ih ⟨ExecutionStatus.running, cur, ex⟩ rfl
    | some node =>
      simp only [hk node.type, hg nid, ho nid, Bool.not_true, Bool.false_eq_true,
        if_false, reduceCtorEq]
      have hrec := ih ⟨ExecutionStatus.running, some nid, ex ++ [nid]⟩ rfl
      refine ⟨hrec.1, hrec.2.1, ?_⟩
      rw [hrec.2.2]
      simp [List.filter_cons, hnm, List.append_assoc]

/-- `execute` on an all-success run: the run completes and executes
exactly the scheduled ids that have a `nodes_map` entry. -/
theorem executeModel_all_ok (o : ExecOracles) (wf : Workflow) (setOrder : List String)
    (hk : ∀ t, o.knownType t = true) (hg : ∀ nid, o.gateRaises nid = false)
    (ho : ∀ nid, o.outcome nid = .ok) :
    (executeModel o wf setOrder (.ok ())).status = .completed ∧
    (executeModel o wf setOrder (.ok ())).executed =
      (topological_sort setOrder wf.edges).filter
        (fun nid => (nodesMapOf wf.nodes nid).isSome) := by
  obtain ⟨h2, h1, h3⟩ := runNodes_all_ok o (nodesMapOf wf.nodes) hk hg ho
    (topological_sort setOrder wf.edges) ⟨.running, Option.none, []⟩ rfl
  have hnc : ¬((runNodes o (nodesMapOf wf.nodes) (topological_sort setOrder wf.edges)
      ⟨.running, Option.none, []⟩).1.status = ExecutionStatus.cancelled) := by
    rw [h1]
    exact fun h => ExecutionStatus.noConfusion h
  simp only [executeModel, run_workflow, h2, if_neg hnc]
  rw [List.nil_append] at h3
  exact ⟨trivial, h3⟩

/-- Concrete cycle run for the scheduler: with nodes `a, b, c` and the
two-edge cycle `a -> b -> a`, the produced order is just `["c"]` — the
cycle's nodes are silently dropped, and no error value exists in the
return type to report them. -/
theorem topo_cyc_concrete :
    topological_sort ["a", "b", "c"] [⟨"a", "b"⟩, ⟨"b", "a"⟩] = ["c"] := by
  unfold topological_sort
  have hseeds : (["a", "b", "c"] : List String).filter
      (fun v => decide (initInDeg ["a", "b", "c"] [⟨"a", "b"⟩, ⟨"b", "a"⟩] v = 0)) =
      ["c"] := by decide
  rw [hseeds, kahnLoop_cons]
  have hadj : adjTargets ["a", "b", "c"] [⟨"a", "b"⟩, ⟨"b", "a"⟩] "c" = [] := by decide
  rw [hadj]
  simp only [stepNeighbors]
  rw [kahnLoop_nil]

/-- C6, amended: the scheduler performs no cycle validation and the engine
executes the truncated order.  For every workflow whose surviving edges
carry a cycle `v :: l` (a nonempty edge chain from `v` back to `v`) over a
duplicate-free set order, none of the cycle's nodes appears in the
produced order, and yet `_run_workflow` (here on oracles where every node
action succeeds) walks that truncated order to normal completion: the
final status is `completed` and exactly the scheduled ids with a
`nodes_map` entry get executed.  No path raises a validation error. -/
theorem c6_silent_truncation (o : ExecOracles) (wf : Workflow)
    (setOrder : List String) (hnd : setOrder.Nodup) (v : String) (l : List String)
    (hch : List.Chain (edgeRel setOrder wf.edges) v (l ++ [v]))
    (hk : ∀ t, o.knownType t = true) (hg : ∀ nid, o.gateRaises nid = false)
    (ho : ∀ nid, o.outcome nid = .ok) :
    (∀ w ∈ v :: l, w ∉ topological_sort setOrder wf.edges) ∧
    (executeModel o wf setOrder (.ok ())).status = .completed ∧
    (executeModel o wf setOrder (.ok ())).executed =
      (topological_sort setOrder wf.edges).filter
        (fun nid => (nodesMapOf wf.nodes nid).isSome) :=
  ⟨cycle_not_in_sort setOrder wf.edges hnd v l hch,
    (executeModel_all_ok o wf setOrder hk hg ho).1,
    (executeModel_all_ok o wf setOrder hk hg ho).2⟩

/-- C6, counterexample: the three-node workflow `a, b, c` with the cycle
`a -> b -> a` among existing nodes.  Scheduling does not fail: it returns
the truncated order `["c"]`, and the engine then executes that order to
completion (final status `completed`, executed list `["c"]`, the cycle's
nodes never run and no error of any kind is produced). -/
theorem c6_counterexample :
    topological_sort ["a", "b", "c"] [⟨"a", "b"⟩, ⟨"b", "a"⟩] = ["c"] ∧
    executeModel ⟨fun _ => true, fun _ => NodeOut.ok, fun _ => false⟩
        ⟨[⟨"a", "noop", []⟩, ⟨"b", "noop", []⟩, ⟨"c", "noop", []⟩],
          [⟨"a", "b"⟩, ⟨"b", "a"⟩]⟩ ["a", "b", "c"] (Except.ok ()) =
      ⟨ExecutionStatus.completed, some "c", ["c"]⟩ := by
  have htopo := topo_cyc_concrete
  refine ⟨htopo, ?_⟩
  simp only [executeModel, run_workflow, htopo]
  rfl

/-- Instantiation of the C6 theorem on the concrete cyclic workflow: the
cycle nodes `a, b` are absent from the order, and the run nevertheless
completes. -/
theorem c6_witness :
    (∀ w ∈ ["a", "b"], w ∉ topological_sort ["a", "b", "c"] [⟨"a", "b"⟩, ⟨"b", "a"⟩]) ∧
    (executeModel ⟨fun _ => true, fun _ => NodeOut.ok, fun _ => false⟩
        ⟨[⟨"a", "noop", []⟩, ⟨"b", "noop", []⟩, ⟨"c", "noop", []⟩],
          [⟨"a", "b"⟩, ⟨"b", "a"⟩]⟩ ["a", "b", "c"] (Except.ok ())).status =
      ExecutionStatus.completed := by
  have h := c6_silent_truncation
    ⟨fun _ => true, fun _ => NodeOut.ok, fun _ => false⟩
    ⟨[⟨"a", "noop", []⟩, ⟨"b", "noop", []⟩, ⟨"c", "noop", []⟩],
      [⟨"a", "b"⟩, ⟨"b", "a"⟩]⟩ ["a", "b", "c"] (by decide) "a" ["b"]
    (List.Chain.cons (by decide) (List.Chain.cons (by decide) List.Chain.nil))
    (fun _ => rfl) (fun _ => rfl) (fun _ => rfl)
  exact ⟨h.1, h.2.1⟩

/-- C7: with a connected streaming channel, `request_user_input` sets the
status to `paused`, emits the `USER_INPUT_REQUIRED` event, and restores
the previous status (the context is returned unchanged); a signalled
response other than `"cancel"` is returned as the value, the response
`"cancel"` raises the user-cancelled error, and expiry of the wait raises
the input-timeout error. -/
theorem c7_request_user_input (ctx : UCtx) (outcome : WaitOutcome)
    (hws : ctx.websocket = true) :
    (request_user_input ctx outcome).trace =
      [CtxEvent.setStatus ExecutionStatus.paused, CtxEvent.userInputRequired,
        CtxEvent.setStatus ctx.status] ∧
    (request_user_input ctx outcome).final = ctx ∧
    (∀ resp, outcome = WaitOutcome.signalled resp → resp ≠ some "cancel" →
      (request_user_input ctx outcome).result = Except.ok resp) ∧
    (outcome = WaitOutcome.signalled (some "cancel") →
      (request_user_input ctx outcome).result =
        Except.error UserInputError.userCancelled) ∧
    (outcome = WaitOutcome.timedOut →
      (request_user_input ctx outcome).result =
        Except.error UserInputError.inputTimeout) := by
  obtain ⟨ws, sts⟩ := ctx
  obtain rfl : ws = true := hws
  cases outcome with
  | signalled resp =>
    by_cases hc : resp = some "cancel"
    · subst hc
      refine ⟨by simp [request_user_input], by simp [request_user_input], ?_, ?_, ?_⟩
      · intro r hr hne
        injection hr with hr
        exact absurd hr.symm hne
      · intro _
        simp [request_user_input]
      · intro h
        exact WaitOutcome.noConfusion h
    · refine ⟨by simp [request_user_input, hc], by simp [request_user_input, hc],
        ?_, ?_, ?_⟩
      · intro r hr hne
        injection hr with hr
        subst hr
        simp [request_user_input, hc]
      · intro h
        injection h with h
        exact absurd h hc
      · intro h
        exact WaitOutcome.noConfusion h
  | timedOut =>
    refine ⟨by simp [request_user_input], by simp [request_user_input], ?_, ?_, ?_⟩
    · intro r hr
      exact absurd hr (fun h => WaitOutcome.noConfusion h)
    · intro h
      exact absurd h (fun h => WaitOutcome.noConfusion h)
    · intro _
      simp [request_user_input]

/-- Instantiation of the C7 theorem at a connected context in status
`running`, signalled with the response `"continue"`. -/
theorem c7_witness :
    (request_user_input ⟨true, ExecutionStatus.running⟩
        (WaitOutcome.signalled (some "continue"))).trace =
      [CtxEvent.setStatus ExecutionStatus.paused, CtxEvent.userInputRequired,
        CtxEvent.setStatus (UCtx.mk true ExecutionStatus.running).status] ∧
    (request_user_input ⟨true, ExecutionStatus.running⟩
        (WaitOutcome.signalled (some "continue"))).final =
      ⟨true, ExecutionStatus.running⟩ ∧
    (∀ resp, WaitOutcome.signalled (some "continue") = WaitOutcome.signalled resp →
      resp ≠ some "cancel" →
      (request_user_input ⟨true, ExecutionStatus.running⟩
          (WaitOutcome.signalled (some "continue"))).result = Except.ok resp) ∧
    (WaitOutcome.signalled (some "continue") = WaitOutcome.signalled (some "cancel") →
      (request_user_input ⟨true, ExecutionStatus.running⟩
          (WaitOutcome.signalled (some "continue"))).result =
        Except.error UserInputError.userCancelled) ∧
    (WaitOutcome.signalled (some "continue") = WaitOutcome.timedOut →
      (request_user_input ⟨true, ExecutionStatus.running⟩
          (WaitOutcome.signalled (some "continue"))).result =
        Except.error UserInputError.inputTimeout) :=
  c7_request_user_input ⟨true, ExecutionStatus.running⟩
    (WaitOutcome.signalled (some "continue")) rfl

/-- C10: without a streaming channel `request_user_input` returns `None`
immediately — no status write, no event, no error, context unchanged —
whatever the (never consulted) wait outcome would have been. -/
theorem c10_no_websocket (ctx : UCtx) (outcome : WaitOutcome)
    (hws : ctx.websocket = false) :
    request_user_input ctx outcome = ⟨[], ctx, Except.ok Option.none⟩ := by
  simp [request_user_input, hws]

/-- Instantiation of the C10 theorem at a disconnected context in status
`running` with a timed-out wait outcome. -/
theorem c10_witness :
    request_user_input ⟨false, ExecutionStatus.running⟩ WaitOutcome.timedOut =
      ⟨[], ⟨false, ExecutionStatus.running⟩, Except.ok Option.none⟩ :=
  c10_no_websocket ⟨false, ExecutionStatus.running⟩ WaitOutcome.timedOut rfl

/-- C8: whenever the detector's LLM call or its response parsing fails —
a raised exception, a parse error (missing field, non-dict access,
non-floatable confidence), or JSON that does not load and carries no
negative keyword — `detect` returns `needs_intervention = true` instead of
propagating the error or defaulting to no-intervention; consequently a
node whose resolved config enables AI intervention, with a live page and a
successful screenshot, is gated behind `request_user_input`. -/
theorem c8_detect_error_gates (loads : String → Option Json)
    (strFloatable : String → Bool) (llm : Except PyErr String)
    (hfail : (∃ e, llm = Except.error e) ∨
      (∃ content e, llm = Except.ok content ∧
        parseDetectionResult loads strFloatable content = Except.error e) ∨
      (∃ content, llm = Except.ok content ∧
        loads (stripFence (pyStrip content)) = Option.none ∧
        hasNegativeKeyword (stripFence (pyStrip content)) = false)) :
    (detect loads strFloatable llm).needs_intervention = true ∧
    ∀ (screenshotOk : Bool) (ctx : UCtx) (hasPage : Bool)
      (cfg : List (String × PyVal)) (outcome : WaitOutcome),
      pyTruthy ((pyGet cfg "enable_ai_intervention").getD (PyVal.bool false)) = true →
      hasPage = true → screenshotOk = true →
      (check_ai_intervention loads strFloatable llm screenshotOk ctx hasPage
        cfg outcome).requestedInput = true := by
  have hdet : (detect loads strFloatable llm).needs_intervention = true := by
    rcases hfail with ⟨e, he⟩ | ⟨content, e, hc, hp⟩ | ⟨content, hc, hl, hkw⟩
    · subst he
      rfl
    · subst hc
      simp [detect, Bind.bind, Except.bind, hp]
    · subst hc
      simp [detect, parseDetectionResult, Bind.bind, Except.bind, hl, hkw]
  refine ⟨hdet, ?_⟩
  intro screenshotOk ctx hasPage cfg outcome henable hpage hscr
  subst hpage
  subst hscr
  simp only [check_ai_intervention, henable, Bool.not_true, Bool.false_eq_true,
    if_false, hdet, if_true]
  rcases hres : (request_user_input ctx outcome).result with e | resp
  · cases e <;> rfl
  · by_cases hcl : resp = some "cancel"
    · simp [hcl]
    · simp [hcl]

/-- Instantiation of the C8 theorem on a failing LLM call (any raised
exception), with the intervention flag enabled, a page present and a
successful screenshot. -/
theorem c8_witness :
    (detect (fun _ => Option.none) (fun _ => false)
        (Except.error PyErr.otherError)).needs_intervention = true ∧
    (check_ai_intervention (fun _ => Option.none) (fun _ => false)
        (Except.error PyErr.otherError) true ⟨true, ExecutionStatus.running⟩ true
        [("enable_ai_intervention", PyVal.bool true)]
        (WaitOutcome.signalled (some "continue"))).requestedInput = true := by
  have h := c8_detect_error_gates (fun _ => Option.none) (fun _ => false)
    (Except.error PyErr.otherError) (Or.inl ⟨PyErr.otherError, rfl⟩)
  exact ⟨h.1, h.2 true ⟨true, ExecutionStatus.running⟩ true
    [("enable_ai_intervention", PyVal.bool true)]
    (WaitOutcome.signalled (some "continue")) (by decide) rfl rfl⟩

/-- The walk never clears `current_node_id`: the result either still holds
the caller's value or holds some id of the walked order (there is no write
of `none` anywhere in the loop). -/
theorem runNodes_current_persists (o : ExecOracles) (nmap : String → Option Node) :
    ∀ (order : List String) (st : RunState),
      (runNodes o nmap order st).1.current_node_id = st.current_node_id ∨
      ∃ nid, nid ∈ order ∧ (runNodes o nmap order st).1.current_node_id = some nid := by
  intro order
  induction order with
  | nil => intro st; exact Or.inl rfl
  | cons nid rest ih =>
    intro st
    simp only [runNodes]
    split
    · exact Or.inl rfl
    · split
      · rcases ih st with h | ⟨m, hm, hcur⟩
        · exact Or.inl h
        · exact Or.inr ⟨m, List.mem_cons_of_mem _ hm, hcur⟩
      · split
        · exact Or.inr ⟨nid, List.mem_cons_self _ _, rfl⟩
        · split
          · exact Or.inr ⟨nid, List.mem_cons_self _ _, rfl⟩
          · split
            · rcases ih _ with h | ⟨m, hm, hcur⟩
              · exact Or.inr ⟨nid, List.mem_cons_self _ _, h⟩
              · exact Or.inr ⟨m, List.mem_cons_of_mem _ hm, hcur⟩
            · exact Or.inr ⟨nid, List.mem_cons_self _ _, rfl⟩
            · exact Or.inr ⟨nid, List.mem_cons_self _ _, rfl⟩

/-- As soon as the order contains an id with a `nodes_map` entry, the walk
from a non-cancelled state leaves `current_node_id` set to some node id. -/
theorem runNodes_current_set (o : ExecOracles) (nmap : String → Option Node) :
    ∀ (order : List String) (st : RunState), st.status ≠ ExecutionStatus.cancelled →
      (∃ nid ∈ order, (nmap nid).isSome = true) →
      ∃ m, (runNodes o nmap order st).1.current_node_id = some m := by
  intro order
  induction order with
  | nil =>
    intro st _ hex
    rcases hex with ⟨w, hw, _⟩
    exact absurd hw (List.not_mem_nil w)
  | cons nid rest ih =>
    intro st hst hex
    simp only [runNodes]
    rw [if_neg hst]
    split
    · rename_i hnm
      rcases hex with ⟨w, hw, hws⟩
      rcases List.mem_cons.mp hw with rfl | hw2
      · rw [hnm] at hws
        exact absurd hws (by simp)
      · exact ih st hst ⟨w, hw2, hws⟩
    · split
      · exact ⟨nid, rfl⟩
      · split
        · exact ⟨nid, rfl⟩
        · split
          · rcases runNodes_current_persists o nmap rest _ with h | ⟨m, hm, hcur⟩
            · exact ⟨nid, h⟩
            · exact ⟨m, hcur⟩
          · exact ⟨nid, rfl⟩
          · exact ⟨nid, rfl⟩

/-- The post-loop and post-exception status writes of `_run_workflow` and
`execute` touch only `status`: `current_node_id` passes through. -/
theorem run_workflow_current (o : ExecOracles) (wf : Workflow) (setOrder : List String) :
    (run_workflow o wf setOrder (Except.ok ())).1.current_node_id =
      (runNodes o (nodesMapOf wf.nodes) (topological_sort setOrder wf.edges)
        ⟨ExecutionStatus.running, Option.none, []⟩).1.current_node_id := by
  simp only [run_workflow]
  split
  · split
    · rfl
    · rfl
  · rfl

/-- The `except Exception` handler of `execute` also touches only
`status`. -/
theorem executeModel_current (o : ExecOracles) (wf : Workflow) (setOrder : List String)
    (connect : Except Unit Unit) :
    (executeModel o wf setOrder connect).current_node_id =
      (run_workflow o wf setOrder connect).1.current_node_id := by
  simp only [executeModel]
  split
  · rfl
  · rfl

/-- C9, amended: `current_node_id` is written once per visited node and
never reset, so it does not return to `None` when the run reaches a
terminal status.  Whenever the schedule contains an id with a `nodes_map`
entry, a run in which every action succeeds ends with the terminal status
`completed` while `current_node_id` still holds a node id — refuting the
claimed invariant that a non-null `current_node_id` implies status
`running` or `paused`. -/
theorem c9_terminal_keeps_current (o : ExecOracles) (wf : Workflow)
    (setOrder : List String)
    (hsome : ∃ nid ∈ topological_sort setOrder wf.edges,
      (nodesMapOf wf.nodes nid).isSome = true)
    (hk : ∀ t, o.knownType t = true) (hg : ∀ nid, o.gateRaises nid = false)
    (ho : ∀ nid, o.outcome nid = .ok) :
    (executeModel o wf setOrder (Except.ok ())).status = ExecutionStatus.completed ∧
    (executeModel o wf setOrder (Except.ok ())).current_node_id ≠ Option.none := by
  refine ⟨(executeModel_all_ok o wf setOrder hk hg ho).1, ?_⟩
  obtain ⟨m, hm⟩ := runNodes_current_set o (nodesMapOf wf.nodes)
    (topological_sort setOrder wf.edges) ⟨ExecutionStatus.running, Option.none, []⟩
    (fun h => ExecutionStatus.noConfusion h) hsome
  rw [executeModel_current, run_workflow_current, hm]
  exact fun h => Option.noConfusion h

/-- C9, counterexample: the single-node workflow `n1` with no edges.  The
run terminates with status `completed`, yet `current_node_id` is
`some "n1"`, not `None`: the claimed invariant fails at the final state. -/
theorem c9_counterexample :
    executeModel ⟨fun _ => true, fun _ => NodeOut.ok, fun _ => false⟩
        ⟨[⟨"n1", "noop", []⟩], []⟩ ["n1"] (Except.ok ()) =
      ⟨ExecutionStatus.completed, some "n1", ["n1"]⟩ ∧
    (some "n1" : Option String) ≠ Option.none := by
  have htopo := topological_sort_no_edges ["n1"]
  refine ⟨?_, fun h => Option.noConfusion h⟩
  simp only [executeModel, run_workflow, htopo]
  rfl

/-- Instantiation of the C9 theorem on the single-node workflow. -/
theorem c9_witness :
    (executeModel ⟨fun _ => true, fun _ => NodeOut.ok, fun _ => false⟩
        ⟨[⟨"n1", "noop", []⟩], []⟩ ["n1"] (Except.ok ())).status =
      ExecutionStatus.completed ∧
    (executeModel ⟨fun _ => true, fun _ => NodeOut.ok, fun _ => false⟩
        ⟨[⟨"n1", "noop", []⟩], []⟩ ["n1"] (Except.ok ())).current_node_id ≠
      Option.none :=
  c9_terminal_keeps_current ⟨fun _ => true, fun _ => NodeOut.ok, fun _ => false⟩
    ⟨[⟨"n1", "noop", []⟩], []⟩ ["n1"]
    ⟨"n1", by rw [topological_sort_no_edges]; exact List.mem_cons_self _ _, rfl⟩
    (fun _ => rfl) (fun _ => rfl) (fun _ => rfl)

/-- C3: the executor's call `browser_mgr.connect(context,
headless=headless, storage_state=storage_state)` does not bind against
`BrowserManager.connect(self, context, headless=True)` — `storage_state`
names no parameter of `connect`, so launch mode with a supplied
`storage_state` raises `TypeError` before any browser context is created,
and no storage-state restoration path exists in `connect` at all. -/
theorem c3_connect_rejects_storage_state :
    connectCallAccepted = false ∧ "storage_state" ∉ browserConnectParams := by
  decide

end SchemaFlow
